import Mathlib

/-!
Verification development for the fsm-whisperer FSM parser / execution engine.

The TypeScript sources are shallowly embedded:
* `FSMParser.parse` and its helpers (field regexes, the two transition-row
  dialects, the indexing normalizer, the validation rules) from
  `src/unnamed/part_004`;
* `runFSM` (transition map keyed by `"state,symbol"`) from the same file;
* the legacy `runFSM` (map keyed by bare concatenation `"state" + symbol`)
  from `src/src/lib/fsm-parser.ts`;
* `getTransition` / `generateFSMSteps` from `src/unnamed/part_006`.

JavaScript regexes are modelled by a small backtracking matcher whose
alternatives are produced in the engine's preference order (leftmost start
position, greedy/lazy quantifier order), so the head of the result list is
the JavaScript match.  JavaScript `Record`s with integer keys are modelled
as association lists kept sorted by key (integer-like keys enumerate in
ascending order); `Record`s with string keys are association lists where
assignment replaces the first matching key in place and appends otherwise.
-/

set_option maxRecDepth 100000

namespace FSM

/-- The character class of the JavaScript `\s` (the ASCII part). -/
def jsSpace (c : Char) : Bool :=
  c = ' ' || c = '\t' || c = '\n' || c = '\r' || c = '\x0b' || c = '\x0c'

/-- The class `["']`: a single or double quote. -/
def isQuote (c : Char) : Bool :=
  c = '\x27' || c = '"'

/-- The JavaScript `\w` class: `[A-Za-z0-9_]`. -/
def wordChar (c : Char) : Bool :=
  c.isAlpha || c.isDigit || c = '_'

/-- The regex `.` (dot): any character except line terminators. -/
def dotChar (c : Char) : Bool :=
  !(c = '\n' || c = '\r')

/-- The class `[:\.]` used after a transition row's state number. -/
def colonDot (c : Char) : Bool :=
  c = ':' || c = '.'

/-- `String.prototype.trim` on a character list. -/
def trimChars (cs : List Char) : List Char :=
  ((cs.dropWhile jsSpace).reverse.dropWhile jsSpace).reverse

/-- ASCII lowercasing of a character list (JavaScript `toLowerCase`). -/
def lowerChars (cs : List Char) : List Char :=
  cs.map Char.toLower

/-- JavaScript `split` on a one-character separator (`""` gives `[""]`,
separators at the ends give empty fields). -/
def splitOnChar (sep : Char) : List Char → List (List Char)
  | [] => [[]]
  | c :: rest =>
    match splitOnChar sep rest with
    | [] => [[]]
    | h :: t => if c = sep then [] :: h :: t else (c :: h) :: t

/-- Numeric value of a nonempty all-digit character list. -/
def digitsToNat (cs : List Char) : Nat :=
  cs.foldl (fun a c => 10 * a + (c.toNat - 48)) 0

/-- `parseInt(s, 10)` on a capture that is known to consist of digits. -/
def digitsToInt (cs : List Char) : Int :=
  Int.ofNat (digitsToNat cs)

/-- `parseInt(s, 10)` on an arbitrary string: skip leading whitespace, accept
an optional sign, then a leading digit run; `none` models `NaN`. -/
def jsParseInt (s : String) : Option Int :=
  match s.data.dropWhile jsSpace with
  | '-' :: rest =>
    let d := rest.takeWhile Char.isDigit
    if d.isEmpty then none else some (-(digitsToNat d : Int))
  | '+' :: rest =>
    let d := rest.takeWhile Char.isDigit
    if d.isEmpty then none else some (digitsToNat d : Int)
  | cs =>
    let d := cs.takeWhile Char.isDigit
    if d.isEmpty then none else some (digitsToNat d : Int)

/-- The integer stored for a transition target: `parseInt(target, 10)`.
`parseInt` of a non-numeric string is `NaN`; that unreachable case (the two
row dialects only produce digit strings) is modelled as `0`. -/
def parseIntTarget (s : String) : Int :=
  (jsParseInt s).getD 0

/-! ### A miniature backtracking regex matcher

Only the constructs appearing in the source's regexes are supported: a
single-character class, greedy `?`, greedy `*`/`+` and lazy `+` over a
character class, concatenation and capture groups.  `mtch` returns every way
the pattern can match a prefix of the input, ordered the way the JavaScript
engine explores them, so the head is the JavaScript behaviour. -/

/-- Captures recorded while matching: group index paired with the consumed
characters. -/
abbrev Caps := List (Nat × List Char)

inductive RE where
  | chr (p : Char → Bool)
  | opt (r : RE)
  | starCls (p : Char → Bool)
  | plusCls (p : Char → Bool)
  | plusClsLazy (p : Char → Bool)
  | seq (a b : RE)
  | grp (n : Nat) (r : RE)

/-- Length of the maximal prefix satisfying `p`. -/
def runLen (p : Char → Bool) : List Char → Nat
  | [] => 0
  | c :: cs => if p c then runLen p cs + 1 else 0

/-- All matches of `r` against a prefix of `cs`, each as (captures, rest),
in the JavaScript engine's preference order. -/
def mtch : RE → List Char → List (Caps × List Char)
  | .chr _, [] => []
  | .chr p, c :: cs => if p c then [([], cs)] else []
  | .opt r, cs => mtch r cs ++ [([], cs)]
  | .starCls p, cs =>
    let k := runLen p cs
    (List.range (k + 1)).reverse.map (fun j => ([], cs.drop j))
  | .plusCls p, cs =>
    let k := runLen p cs
    ((List.range k).map (· + 1)).reverse.map (fun j => ([], cs.drop j))
  | .plusClsLazy p, cs =>
    let k := runLen p cs
    (List.range k).map (fun j => ([], cs.drop (j + 1)))
  | .seq a b, cs =>
    (mtch a cs).flatMap (fun pr =>
      (mtch b pr.2).map (fun qr => (pr.1 ++ qr.1, qr.2)))
  | .grp n r, cs =>
    (mtch r cs).map (fun pr => ((n, cs.take (cs.length - pr.2.length)) :: pr.1, pr.2))

/-- First (leftmost, preferred) match of `r` anywhere in `cs`; returns the
captures and the remaining input after the match. -/
def scanMatch (r : RE) : List Char → Option (Caps × List Char)
  | [] => (mtch r []).head?
  | c :: cs =>
    match (mtch r (c :: cs)).head? with
    | some res => some res
    | none => scanMatch r cs

/-- Contents of capture group `n`. -/
def getCap (caps : Caps) (n : Nat) : List Char :=
  esome (caps.find? (fun e => e.1 = n))
where esome (o : Option (Nat × List Char)) : List Char :=
  match o with
  | some e => e.2
  | none => []

/-- Case-insensitive literal (the `/i` flag applied to a keyword). -/
def litCI : List Char → RE
  | [] => .opt (.chr (fun _ => false))
  | [c] => .chr (fun x => x.toLower = c)
  | c :: cs => .seq (.chr (fun x => x.toLower = c)) (litCI cs)

/-- `/(\d+)[:\.]?\s*(.+)/` — state number (group 1) and row remainder
(group 2) of a transition row. -/
def reRow : RE :=
  .seq (.grp 1 (.plusCls Char.isDigit))
    (.seq (.opt (.chr colonDot))
      (.seq (.starCls jsSpace) (.grp 2 (.plusCls dotChar))))

/-- `/name\s*=\s*["'](.+?)["']/i`. -/
def reName : RE :=
  .seq (litCI "name".data)
    (.seq (.starCls jsSpace)
      (.seq (.chr (· = '='))
        (.seq (.starCls jsSpace)
          (.seq (.chr isQuote)
            (.seq (.grp 1 (.plusClsLazy dotChar)) (.chr isQuote))))))

/-- `/states\s*=\s*["']?(\d+)["']?/i`. -/
def reStates : RE :=
  .seq (litCI "states".data)
    (.seq (.starCls jsSpace)
      (.seq (.chr (· = '='))
        (.seq (.starCls jsSpace)
          (.seq (.opt (.chr isQuote))
            (.seq (.grp 1 (.plusCls Char.isDigit)) (.opt (.chr isQuote)))))))

/-- `/symbols\s*=\s*\{(.+?)\}/i`. -/
def reSymbols : RE :=
  .seq (litCI "symbols".data)
    (.seq (.starCls jsSpace)
      (.seq (.chr (· = '='))
        (.seq (.starCls jsSpace)
          (.seq (.chr (· = '\x7b'))
            (.seq (.grp 1 (.plusClsLazy dotChar)) (.chr (· = '\x7d')))))))

/-- `/startstate\s*=\s*(\d+)/i`. -/
def reStart : RE :=
  .seq (litCI "startstate".data)
    (.seq (.starCls jsSpace)
      (.seq (.chr (· = '='))
        (.seq (.starCls jsSpace) (.grp 1 (.plusCls Char.isDigit)))))

/-- `/acceptstate\s*=\s*(\d+)/i`. -/
def reAccept : RE :=
  .seq (litCI "acceptstate".data)
    (.seq (.starCls jsSpace)
      (.seq (.chr (· = '='))
        (.seq (.starCls jsSpace) (.grp 1 (.plusCls Char.isDigit)))))

/-- `/on\s*['"](\d+)['"]\.?\s*m\w*\s*['"](\d+)['"]\.?/gi` — one occurrence of
the natural-language transition dialect. -/
def reNatTrans : RE :=
  .seq (litCI "on".data)
    (.seq (.starCls jsSpace)
      (.seq (.chr isQuote)
        (.seq (.grp 1 (.plusCls Char.isDigit))
          (.seq (.chr isQuote)
            (.seq (.opt (.chr (· = '.')))
              (.seq (.starCls jsSpace)
                (.seq (.chr (fun c => c.toLower = 'm'))
                  (.seq (.starCls wordChar)
                    (.seq (.starCls jsSpace)
                      (.seq (.chr isQuote)
                        (.seq (.grp 2 (.plusCls Char.isDigit))
                          (.seq (.chr isQuote) (.opt (.chr (· = '.')))))))))))))))

/-- `/transitions\s*=\s*(\d+[:\.]?\s*.+)/i` — the optional inline first row on
the `transitions =` line itself (group 1). -/
def reInline : RE :=
  .seq (litCI "transitions".data)
    (.seq (.starCls jsSpace)
      (.seq (.chr (· = '='))
        (.seq (.starCls jsSpace)
          (.grp 1
            (.seq (.plusCls Char.isDigit)
              (.seq (.opt (.chr colonDot))
                (.seq (.starCls jsSpace) (.plusCls dotChar))))))))

/-! ### Data model -/

/-- `FSMValidationError`: line number (0 = whole document) and message. -/
structure FSMErr where
  lineNumber : Nat
  message : String
deriving Repr, DecidableEq

/-- The canonical parsed model (`FSMData` in `part_004`).  State identifiers
are integers; `transitions` is the `Record<number, [string, string][]>`,
modelled as an association list sorted by key (JavaScript enumerates
integer-like keys in ascending order). -/
structure FSMData where
  name : String
  states : Nat
  symbols : List String
  transitions : List (Int × List (String × String))
  startstate : Int
  acceptstate : Int
  zeroIndexed : Bool
deriving Repr, DecidableEq

/-- The parser's mutable `this.data` before the final cast. -/
structure PData where
  name : Option String := none
  states : Option Int := none
  symbols : Option (List String) := none
  transitions : List (Int × List (String × String)) := []
  startstate : Option Int := none
  acceptstate : Option Int := none
  zeroIndexed : Bool := false
deriving Repr, DecidableEq

/-- The parser's `fieldsFound` set. -/
structure Found where
  name : Bool := false
  states : Bool := false
  symbols : Bool := false
  transitions : Bool := false
  startstate : Bool := false
  acceptstate : Bool := false
deriving Repr, DecidableEq

/-- Assignment `record[k] = v` on an integer-keyed JavaScript `Record`:
replace the value if the key exists, otherwise insert in ascending key
order (integer-like keys enumerate numerically). -/
def recordInsert (k : Int) (v : List (String × String)) :
    List (Int × List (String × String)) → List (Int × List (String × String))
  | [] => [(k, v)]
  | (k', v') :: rest =>
    if k = k' then (k, v) :: rest
    else if k < k' then (k, v) :: (k', v') :: rest
    else (k', v') :: recordInsert k v rest

/-! ### Field parsers (`FSMParser.parseName` … `parseAcceptState`) -/

def parseName (ln : Nat) (line : List Char) (st : PData) (f : Found) :
    Except FSMErr (PData × Found) :=
  match scanMatch reName line with
  | none => .error ⟨ln, "Name must be in format: Name = \"value\""⟩
  | some (caps, _) =>
    .ok ({ st with name := some (String.mk (getCap caps 1)) }, { f with name := true })

def parseStates (ln : Nat) (line : List Char) (st : PData) (f : Found) :
    Except FSMErr (PData × Found) :=
  match scanMatch reStates line with
  | none => .error ⟨ln, "States must be an integer"⟩
  | some (caps, _) =>
    .ok ({ st with states := some (digitsToInt (getCap caps 1)) }, { f with states := true })

def parseSymbols (ln : Nat) (line : List Char) (st : PData) (f : Found) :
    Except FSMErr (PData × Found) :=
  match scanMatch reSymbols line with
  | none => .error ⟨ln, "Symbols must be in format: symbols = \x7b0, 1\x7d"⟩
  | some (caps, _) =>
    let syms := (splitOnChar ',' (getCap caps 1)).map (fun s => String.mk (trimChars s))
    .ok ({ st with symbols := some syms }, { f with symbols := true })

def parseStartState (ln : Nat) (line : List Char) (st : PData) (f : Found) :
    Except FSMErr (PData × Found) :=
  match scanMatch reStart line with
  | none => .error ⟨ln, "Start state must be an integer"⟩
  | some (caps, _) =>
    .ok ({ st with startstate := some (digitsToInt (getCap caps 1)) },
         { f with startstate := true })

def parseAcceptState (ln : Nat) (line : List Char) (st : PData) (f : Found) :
    Except FSMErr (PData × Found) :=
  match scanMatch reAccept line with
  | none => .error ⟨ln, "Accept state must be an integer"⟩
  | some (caps, _) =>
    .ok ({ st with acceptstate := some (digitsToInt (getCap caps 1)) },
         { f with acceptstate := true })

/-! ### Transition rows (`FSMParser.parseTransitionLine`) -/

/-- Successive matches of the natural-language dialect collected
left-to-right (the `exec` loop over the `/g` regex); `fuel` bounds the scan
and is instantiated with the input length. -/
def collectNat : Nat → List Char → List (String × String)
  | 0, _ => []
  | fuel + 1, cs =>
    match scanMatch reNatTrans cs with
    | none => []
    | some (caps, rest) =>
      (String.mk (getCap caps 1), String.mk (getCap caps 2)) ::
        (if rest.length < cs.length then collectNat fuel rest else [])

/-- All matches of the natural-language form `on '<symbol>' m… '<target>'`
on a row, in left-to-right order. -/
def newFormatMatches (cs : List Char) : List (String × String) :=
  collectNat cs.length cs

/-- The legacy dotted dialect: comma-separated `<symbol>.<target>` tokens
whose two sides are (after trimming) nonempty digit strings. -/
def oldFormatMatches (cs : List Char) : List (String × String) :=
  (splitOnChar ',' cs).filterMap (fun t =>
    let trimmed := trimChars t
    if trimmed.contains '.' then
      match splitOnChar '.' trimmed with
      | [a, b] =>
        let a' := trimChars a
        let b' := trimChars b
        if (!a'.isEmpty && a'.all Char.isDigit) && (!b'.isEmpty && b'.all Char.isDigit)
        then some (String.mk a', String.mk b')
        else none
      | _ => none
    else none)

/-- One transition row: the leading state number, then the
natural-language dialect, falling back to the legacy dotted dialect. -/
def parseTransitionLine (ln : Nat) (line : List Char) :
    Except FSMErr (Int × List (String × String)) :=
  match scanMatch reRow line with
  | none => .error ⟨ln, "Invalid transition format: \x27" ++ String.mk line ++ "\x27"⟩
  | some (caps, _) =>
    let state := digitsToInt (getCap caps 1)
    let tstr := getCap caps 2
    let nf := newFormatMatches tstr
    let ts := if nf.isEmpty then oldFormatMatches tstr else nf
    if ts.isEmpty then
      .error ⟨ln, "No valid transitions found in: \x27" ++ String.mk line ++ "\x27"⟩
    else .ok (state, ts)

/-- Does a (lowercased, trimmed) line start with one of the keywords that
terminates a transitions block? -/
def stopsTransitions (lcs : List Char) : Bool :=
  ["name", "states", "symbols", "startstate", "acceptstate"].any
    (fun k => k.data.isPrefixOf lcs)

/-- The scanning loop of `FSMParser.parseTransitions` over the lines after
the `transitions =` line; returns the updated state and the loop's return
index.  The index grows by one per iteration, so the structural `fuel`
argument (instantiated with `lines.length + 1`) never runs out. -/
def parseTransGo (lines : List (List Char)) : Nat → PData → Nat → Except FSMErr (PData × Nat)
  | 0, st, i => .ok (st, i)
  | fuel + 1, st, i =>
    if i < lines.length then
      let line := trimChars (lines.getD i [])
      if line.isEmpty then parseTransGo lines fuel st (i + 1)
      else if stopsTransitions (lowerChars line) then .ok (st, i - 1)
      else
        match parseTransitionLine (i + 1) line with
        | .error e => .error e
        | .ok (s, ts) =>
          parseTransGo lines fuel { st with transitions := recordInsert s ts st.transitions }
            (i + 1)
    else .ok (st, i)

def parseTransLoop (lines : List (List Char)) (st : PData) (i : Nat) :
    Except FSMErr (PData × Nat) :=
  parseTransGo lines (lines.length + 1) st i

/-- `FSMParser.parseTransitions`: optional inline first row on the
`transitions =` line, then the scanning loop. -/
def parseTransitions (lines : List (List Char)) (st : PData) (startIdx : Nat) :
    Except FSMErr (PData × Nat) :=
  let firstLine := trimChars (lines.getD startIdx [])
  match scanMatch reInline firstLine with
  | some (caps, _) =>
    match parseTransitionLine (startIdx + 1) (getCap caps 1) with
    | .error e => .error e
    | .ok (s, ts) =>
      parseTransLoop lines { st with transitions := recordInsert s ts st.transitions }
        (startIdx + 1)
  | none => parseTransLoop lines st (startIdx + 1)

/-! ### The line dispatch loop (`FSMParser.parseFields`) -/

def parseFieldsGo (lines : List (List Char)) :
    Nat → Nat → PData → Found → Except FSMErr (PData × Found)
  | 0, _, st, f => .ok (st, f)
  | fuel + 1, i, st, f =>
    if i < lines.length then
      let line := trimChars (lines.getD i [])
      if line.isEmpty then parseFieldsGo lines fuel (i + 1) st f
      else
        let ll := lowerChars line
        if "name".data.isPrefixOf ll then
          match parseName (i + 1) line st f with
          | .error e => .error e
          | .ok (st', f') => parseFieldsGo lines fuel (i + 1) st' f'
        else if "states".data.isPrefixOf ll then
          match parseStates (i + 1) line st f with
          | .error e => .error e
          | .ok (st', f') => parseFieldsGo lines fuel (i + 1) st' f'
        else if "symbols".data.isPrefixOf ll then
          match parseSymbols (i + 1) line st f with
          | .error e => .error e
          | .ok (st', f') => parseFieldsGo lines fuel (i + 1) st' f'
        else if "transitions".data.isPrefixOf ll then
          match parseTransitions lines st i with
          | .error e => .error e
          | .ok (st', j) => parseFieldsGo lines fuel (j + 1) st' { f with transitions := true }
        else if "startstate".data.isPrefixOf ll then
          match parseStartState (i + 1) line st f with
          | .error e => .error e
          | .ok (st', f') => parseFieldsGo lines fuel (i + 1) st' f'
        else if "acceptstate".data.isPrefixOf ll then
          match parseAcceptState (i + 1) line st f with
          | .error e => .error e
          | .ok (st', f') => parseFieldsGo lines fuel (i + 1) st' f'
        else parseFieldsGo lines fuel (i + 1) st f
    else .ok (st, f)

/-- `FSMParser.parseFields`: the index only moves forward, so
`lines.length + 2` iterations always suffice. -/
def parseFields (lines : List (List Char)) : Except FSMErr (PData × Found) :=
  parseFieldsGo lines (lines.length + 2) 0 {} {}

/-! ### Required-field pre-check -/

/-- Naive substring test. -/
def containsSub (needle : List Char) : List Char → Bool
  | [] => needle.isEmpty
  | c :: cs => needle.isPrefixOf (c :: cs) || containsSub needle cs

def requiredFields : List String :=
  ["name", "states", "symbols", "transitions", "startstate", "acceptstate"]

/-- `FSMParser.checkRequiredFields`: the lines joined with no separator,
lowercased, must contain each keyword as a substring. -/
def checkRequiredFields (lines : List (List Char)) : Except FSMErr Unit :=
  let content := lowerChars (lines.foldl (fun a l => a ++ l) [])
  let missing := requiredFields.filter (fun fld => !containsSub fld.data content)
  if missing.isEmpty then .ok ()
  else .error ⟨0, "Missing required fields: " ++ String.intercalate ", " missing⟩

/-! ### Indexing normalizer (`detectAndNormalizeIndexingScheme`) -/

/-- `Math.min(...l)` for a nonempty list (0 as an unused default). -/
def jsMin : List Int → Int
  | [] => 0
  | x :: xs => xs.foldl min x

/-- `Math.max(...l)` for a nonempty list. -/
def jsMax : List Int → Int
  | [] => 0
  | x :: xs => xs.foldl max x

/-- The transition targets that parse as numbers, in enumeration order. -/
def observedTargets (st : PData) : List Int :=
  st.transitions.flatMap (fun e => e.2.filterMap (fun p => jsParseInt p.2))

/-- The transition row source keys (`transitionStates`). -/
def rowKeys (st : PData) : List Int :=
  st.transitions.map (·.1)

/-- The `looksShifted` test: a positive state count, row labels spanning
exactly `1..N`, and observed targets spanning exactly `0..N-1` (an empty
target list has min `+∞` and max `-∞` and never qualifies). -/
def looksShifted (st : PData) : Bool :=
  st.states.getD 0 > 0 && jsMin (rowKeys st) = 1 &&
    jsMax (rowKeys st) = st.states.getD 0 &&
    !(observedTargets st).isEmpty && jsMin (observedTargets st) = 0 &&
    jsMax (observedTargets st) = st.states.getD 0 - 1

/-- Detect the indexing scheme and normalize the shifted dialect
(rows `1..N`, targets `0..N-1`): pure function of the parsed state. -/
def detectAndNormalize (st : PData) : PData :=
  if (rowKeys st).isEmpty then { st with zeroIndexed := false }
  else if (rowKeys st).contains 0 then { st with zeroIndexed := true }
  else if looksShifted st then
    { st with
      transitions := st.transitions.foldl (fun acc e => recordInsert (e.1 - 1) e.2 acc) []
      startstate := st.startstate.map (· - 1)
      acceptstate := st.acceptstate.map (· - 1)
      zeroIndexed := true }
  else { st with zeroIndexed := false }

/-! ### Validation rules (`FSMParser.validateRules`) -/

/-- The canonical expected state identifiers (`0..states-1` or `1..states`;
a non-positive count yields the empty range, as `Array.from` does). -/
def expectedStates (zeroIndexed : Bool) (numStates : Int) : List Int :=
  (List.range numStates.toNat).map
    (fun (i : Nat) => if zeroIndexed then (i : Int) else (i : Int) + 1)

def missingFields (f : Found) : List String :=
  requiredFields.filter (fun fld =>
    if fld = "name" then !f.name
    else if fld = "states" then !f.states
    else if fld = "symbols" then !f.symbols
    else if fld = "transitions" then !f.transitions
    else if fld = "startstate" then !f.startstate
    else !f.acceptstate)

/-- The lower bound of the canonical state range. -/
def stateMinOf (st : PData) : Int :=
  if st.zeroIndexed then 0 else 1

/-- The upper bound of the canonical state range. -/
def stateMaxOf (st : PData) : Int :=
  if st.zeroIndexed then st.states.getD 0 - 1 else st.states.getD 0

def validateRules (st : PData) (f : Found) : Except FSMErr Unit :=
  if !(missingFields f).isEmpty then
    .error ⟨0, "Missing required fields: " ++
      String.intercalate ", " (missingFields f)⟩
  else if (st.transitions.map (·.1)).length ≠
      (expectedStates st.zeroIndexed (st.states.getD 0)).length then
    .error ⟨0, "Number of transitions must equal number of states"⟩
  else if !((expectedStates st.zeroIndexed (st.states.getD 0)).all
      (fun s => (st.transitions.map (·.1)).contains s)) then
    .error ⟨0, "A state has no transitions defined"⟩
  else if st.startstate.getD 0 < stateMinOf st || stateMaxOf st < st.startstate.getD 0 then
    .error ⟨0, "Start state is invalid"⟩
  else if st.acceptstate.getD 0 < stateMinOf st || stateMaxOf st < st.acceptstate.getD 0 then
    .error ⟨0, "Accept state is invalid"⟩
  else if !(st.transitions.all (fun e => e.2.length = (st.symbols.getD []).length)) then
    .error ⟨0, "A state has the wrong number of transitions"⟩
  else if !(st.transitions.all (fun e => e.2.all (fun p =>
      match jsParseInt p.2 with
      | none => true
      | some v => stateMinOf st ≤ v && v ≤ stateMaxOf st))) then
    .error ⟨0, "A transition goes to an invalid state"⟩
  else .ok ()

/-- The final `this.data as FSMData` cast (all fields are set whenever
validation passed). -/
def toFSMData (st : PData) : FSMData :=
  ⟨st.name.getD "", (st.states.getD 0).toNat, st.symbols.getD [], st.transitions,
    st.startstate.getD 0, st.acceptstate.getD 0, st.zeroIndexed⟩

/-- `FSMParser.parse` / `parseFSMFile`. -/
def parse (fileContent : String) : Except FSMErr FSMData :=
  let lines := splitOnChar '\n' fileContent.data
  match checkRequiredFields lines with
  | .error e => .error e
  | .ok _ =>
    match parseFields lines with
    | .error e => .error e
    | .ok (st, f) =>
      let st := detectAndNormalize st
      match validateRules st f with
      | .error e => .error e
      | .ok _ => .ok (toFSMData st)

/-! ### Execution engine (`runFSM`, `part_004`) -/

/-- One entry of the visited path: the state, and the consumed symbol
(absent on the seed entry). -/
structure PathEntry where
  state : Int
  symbol : Option String
deriving Repr, DecidableEq

structure RunResult where
  accepted : Bool
  path : List PathEntry
  endState : Int
  error : Option String
deriving Repr, DecidableEq

/-- Assignment on a string-keyed JavaScript `Record`: replace the first
matching key in place, else append. -/
def jsSet : List (String × Int) → String → Int → List (String × Int)
  | [], k, v => [(k, v)]
  | (k', v') :: rest, k, v =>
    if k' = k then (k', v) :: rest else (k', v') :: jsSet rest k v

/-- Property read on a string-keyed `Record` (`key in map` / `map[key]`). -/
def jsGet (m : List (String × Int)) (k : String) : Option Int :=
  (m.find? (fun e => e.1 = k)).map (·.2)

/-- The key `` `${state},${inputSymbol}` `` of the current engine. -/
def commaKey (state : Int) (symbol : String) : String :=
  toString state ++ "," ++ symbol

/-- The transition map of the current engine: flatten `transitions` under
comma-joined keys (later writes overwrite earlier ones). -/
def buildTransitionMap (fsm : FSMData) : List (String × Int) :=
  fsm.transitions.foldl (fun m e =>
    e.2.foldl (fun m p => jsSet m (commaKey e.1 p.1) (parseIntTarget p.2)) m) []

/-- The character-consuming loop of `runFSM`. -/
def runGo (tmap : List (String × Int)) (accept : Int) :
    Int → List PathEntry → List Char → RunResult
  | cur, path, [] => ⟨cur = accept, path, cur, none⟩
  | cur, path, c :: rest =>
    match jsGet tmap (commaKey cur (String.singleton c)) with
    | none =>
      ⟨false, path, cur,
        some ("No transition for \x27" ++ String.singleton c ++ "\x27 from state " ++
          toString cur)⟩
    | some nxt => runGo tmap accept nxt (path ++ [⟨nxt, some (String.singleton c)⟩]) rest

/-- `runFSM` from `part_004`: total — a missing transition is a structured
rejection, never an exception. -/
def runFSM (fsm : FSMData) (input : String) : RunResult :=
  runGo (buildTransitionMap fsm) fsm.acceptstate fsm.startstate
    [⟨fsm.startstate, none⟩] input.data

/-! ### Legacy execution engine (`runFSM`, `src/src/lib/fsm-parser.ts`) -/

/-- The key `` `${state}${inputSymbol}` `` of the legacy engine. -/
def bareKey (state : Int) (symbol : String) : String :=
  toString state ++ symbol

def buildTransitionMapLegacy (fsm : FSMData) : List (String × Int) :=
  fsm.transitions.foldl (fun m e =>
    e.2.foldl (fun m p => jsSet m (bareKey e.1 p.1) (parseIntTarget p.2)) m) []

def runGoLegacy (tmap : List (String × Int)) (accept : Int) :
    Int → List PathEntry → List Char → RunResult
  | cur, path, [] => ⟨cur = accept, path, cur, none⟩
  | cur, path, c :: rest =>
    match jsGet tmap (bareKey cur (String.singleton c)) with
    | none =>
      ⟨false, path, cur,
        some ("No transition for \x27" ++ String.singleton c ++ "\x27 from state " ++
          toString cur)⟩
    | some nxt => runGoLegacy tmap accept nxt (path ++ [⟨nxt, some (String.singleton c)⟩]) rest

/-- The legacy engine (it ignores `zeroIndexed`, which its own `FSMData`
does not carry). -/
def runFSMLegacy (fsm : FSMData) (input : String) : RunResult :=
  runGoLegacy (buildTransitionMapLegacy fsm) fsm.acceptstate fsm.startstate
    [⟨fsm.startstate, none⟩] input.data

/-! ### Step enumerator (`part_006`) -/

structure StateStep where
  currentState : Int
  nextState : Option Int
  upcomingInput : Option String
deriving Repr, DecidableEq

structure StepResult where
  position : Nat
  symbol : String
  isAnchor : Bool
  states : List StateStep
deriving Repr, DecidableEq

/-- `getTransition`: first entry of the state's list matching the symbol
(`null` when the state has no list or no entry matches). -/
def getTransition (fsm : FSMData) (state : Int) (symbol : String) : Option Int :=
  match (fsm.transitions.find? (fun e => e.1 = state)).map (·.2) with
  | none => none
  | some lst => (lst.find? (fun p => p.1 = symbol)).map (fun p => parseIntTarget p.2)

/-- Chunk size: length of the first symbol; `|| 1` makes it 1 when symbols
are empty or the first symbol is the empty string. -/
def chunkSize (fsm : FSMData) : Nat :=
  match fsm.symbols with
  | [] => 1
  | s :: _ => if s.length = 0 then 1 else s.length

/-- `input.slice(i, i + c)` chunking (`for (i = 0; i < n; i += c)`).  The
step consumes `max c 1` characters (the caller always passes `c ≥ 1`), so
the structural `fuel` argument (instantiated with the input length) never
runs out. -/
def chunksGo (c : Nat) : Nat → List Char → List String
  | 0, _ => []
  | _, [] => []
  | fuel + 1, cs => String.mk (cs.take c) :: chunksGo c fuel (cs.drop (max c 1))

def chunksOf (c : Nat) (cs : List Char) : List String :=
  chunksGo c cs.length cs

/-- `generateFSMSteps` from `part_006`. -/
def generateFSMSteps (fsm : FSMData) (input : String) : List StepResult :=
  let chunks := chunksOf (chunkSize fsm) input.data
  chunks.enum.map (fun e =>
    let position := e.1
    let symbol := e.2
    let upcomingInput :=
      if position < chunks.length - 1 then some (chunks.getD (position + 1) "") else none
    if position = 0 then
      ⟨position, symbol, true,
        [⟨fsm.startstate, getTransition fsm fsm.startstate symbol, upcomingInput⟩]⟩
    else
      ⟨position, symbol, false,
        (List.range fsm.states).map (fun (i : Nat) =>
          let stateNum : Int := (i : Int) + 1
          ⟨stateNum, getTransition fsm stateNum symbol, upcomingInput⟩)⟩)

/-! ## Helper lemmas -/

theorem foldl_min_mem (xs : List Int) : ∀ x : Int, xs.foldl min x ∈ x :: xs := by
  induction xs with
  | nil => intro x; simp
  | cons y ys ih =>
    intro x
    have h := ih (min x y)
    rcases min_choice x y with hm | hm <;>
      simp only [List.foldl_cons] <;> rw [hm] at h ⊢ <;>
      rcases List.mem_cons.mp h with h' | h' <;> simp [h']

theorem foldl_max_mem (xs : List Int) : ∀ x : Int, xs.foldl max x ∈ x :: xs := by
  induction xs with
  | nil => intro x; simp
  | cons y ys ih =>
    intro x
    have h := ih (max x y)
    rcases max_choice x y with hm | hm <;>
      simp only [List.foldl_cons] <;> rw [hm] at h ⊢ <;>
      rcases List.mem_cons.mp h with h' | h' <;> simp [h']

theorem jsMin_mem {l : List Int} (h : l ≠ []) : jsMin l ∈ l := by
  match l, h with
  | x :: xs, _ => exact foldl_min_mem xs x

theorem foldl_min_le (xs : List Int) : ∀ x : Int, xs.foldl min x ≤ x := by
  induction xs with
  | nil => intro x; simp
  | cons y ys ih =>
    intro x
    calc (y :: ys).foldl min x = ys.foldl min (min x y) := rfl
    _ ≤ min x y := ih _
    _ ≤ x := min_le_left _ _

theorem le_foldl_max (xs : List Int) : ∀ x : Int, x ≤ xs.foldl max x := by
  induction xs with
  | nil => intro x; simp
  | cons y ys ih =>
    intro x
    calc x ≤ max x y := le_max_left _ _
    _ ≤ ys.foldl max (max x y) := ih _
    _ = (y :: ys).foldl max x := rfl

theorem jsMin_le_jsMax {l : List Int} (h : l ≠ []) : jsMin l ≤ jsMax l := by
  match l, h with
  | x :: xs, _ =>
    calc jsMin (x :: xs) = xs.foldl min x := rfl
    _ ≤ x := foldl_min_le xs x
    _ ≤ xs.foldl max x := le_foldl_max xs x
    _ = jsMax (x :: xs) := rfl

theorem recordInsert_keys_self (k : Int) (v : List (String × String)) :
    ∀ m, k ∈ (recordInsert k v m).map (·.1) := by
  intro m
  induction m with
  | nil => simp [recordInsert]
  | cons e rest ih =>
    obtain ⟨k', v'⟩ := e
    by_cases h1 : k = k'
    · rw [recordInsert, if_pos h1, List.map_cons, List.mem_cons]
      left; rfl
    · by_cases h2 : k < k'
      · rw [recordInsert, if_neg h1, if_pos h2, List.map_cons, List.mem_cons]
        left; rfl
      · rw [recordInsert, if_neg h1, if_neg h2, List.map_cons, List.mem_cons]
        right; exact ih

theorem recordInsert_keys_mono (k : Int) (v : List (String × String)) (a : Int) :
    ∀ m, a ∈ m.map (·.1) → a ∈ (recordInsert k v m).map (·.1) := by
  intro m
  induction m with
  | nil => intro h; simp at h
  | cons e rest ih =>
    obtain ⟨k', v'⟩ := e
    intro ha
    rw [List.map_cons, List.mem_cons] at ha
    by_cases h1 : k = k'
    · rw [recordInsert, if_pos h1, List.map_cons, List.mem_cons]
      rcases ha with h | h
      · left; rw [h, ← h1]
      · right; exact h
    · by_cases h2 : k < k'
      · rw [recordInsert, if_neg h1, if_pos h2, List.map_cons, List.map_cons,
          List.mem_cons, List.mem_cons]
        rcases ha with h | h
        · right; left; exact h
        · right; right; exact h
      · rw [recordInsert, if_neg h1, if_neg h2, List.map_cons, List.mem_cons]
        rcases ha with h | h
        · left; exact h
        · right; exact ih h

/-- A key inserted at some point of the shifted-normalization fold stays in
the final record. -/
theorem foldl_recordInsert_keys (l : List (Int × List (String × String))) :
    ∀ (acc : List (Int × List (String × String))) (a : Int),
      a ∈ acc.map (·.1) →
      a ∈ (l.foldl (fun acc e => recordInsert (e.1 - 1) e.2 acc) acc).map (·.1) := by
  induction l with
  | nil => intro acc a h; simpa using h
  | cons e rest ih =>
    intro acc a h
    exact ih _ a (recordInsert_keys_mono _ _ _ _ h)

theorem foldl_recordInsert_mem (l : List (Int × List (String × String)))
    (e : Int × List (String × String)) (he : e ∈ l) :
    ∀ acc, (e.1 - 1) ∈ (l.foldl (fun acc e => recordInsert (e.1 - 1) e.2 acc) acc).map (·.1) := by
  induction l with
  | nil => cases he
  | cons x rest ih =>
    intro acc
    rcases List.mem_cons.mp he with h | h
    · subst h
      exact foldl_recordInsert_keys rest _ _ (recordInsert_keys_self _ _ _)
    · exact ih h _

theorem recordInsert_append (k : Int) (v : List (String × String)) :
    ∀ m, (∀ e ∈ m, e.1 < k) → recordInsert k v m = m ++ [(k, v)] := by
  intro m
  induction m with
  | nil => intro _; rfl
  | cons e rest ih =>
    obtain ⟨k', v'⟩ := e
    intro h
    have hk : k' < k := h (k', v') (by simp)
    have h1 : ¬ k = k' := by omega
    have h2 : ¬ k < k' := by omega
    rw [recordInsert, if_neg h1, if_neg h2, ih (fun x hx => h x (by simp [hx])),
      List.cons_append]

theorem foldl_recordInsert_sorted (l : List (Int × List (String × String)))
    (hl : l.Pairwise (fun a b => a.1 < b.1)) :
    ∀ acc, (∀ a ∈ acc, ∀ b ∈ l, a.1 < b.1) →
      l.foldl (fun acc e => recordInsert e.1 e.2 acc) acc = acc ++ l := by
  induction l with
  | nil => intro acc _; simp
  | cons e rest ih =>
    intro acc hacc
    simp only [List.foldl_cons]
    rw [show recordInsert e.1 e.2 acc = acc ++ [e] by
      simpa using recordInsert_append e.1 e.2 acc (fun a ha => hacc a ha e (by simp))]
    rw [ih (List.Pairwise.of_cons hl) (acc ++ [e]) ?_]
    · simp
    · intro a ha b hb
      rcases List.mem_append.mp ha with h | h
      · exact hacc a h b (by simp [hb])
      · have : a = e := by simpa using h
        subst this
        exact (List.pairwise_cons.mp hl).1 b hb

/-! ## C3: the concrete §8 fixture -/

/-- The fixture of §8 / the `part_000` test (inline first row, mixed
`Move`/`move`/`On` spellings, `3.`/`4.` prefixes). -/
def fixtureText : String :=
  "Name = \"divby4fsm\"\nstates = 4\nsymbols = \x7b0, 1\x7d\ntransitions =   1: on \x270\x27 Move \x271\x27, on \x271\x27 Move \x271\x27\n\t\t2: on \x270\x27 move \x272\x27, on \x271\x27 Move \x273\x27\n\t\t3. On \x270\x27 move \x271\x27, on \x271\x27 move \x271\x27\n\t\t4. On \x270\x27 move \x272\x27, on \x271\x27 move \x273\x27\n\t\t\nstartstate = 1\nacceptstate = 1"

/-- The model §8 requires for the fixture. -/
def fixtureFSM : FSMData :=
  ⟨"divby4fsm", 4, ["0", "1"],
    [(1, [("0", "1"), ("1", "1")]),
     (2, [("0", "2"), ("1", "3")]),
     (3, [("0", "1"), ("1", "1")]),
     (4, [("0", "2"), ("1", "3")])],
    1, 1, false⟩

deriving instance DecidableEq for Except

/-- C3: parsing the §8 fixture yields `states=4`, `symbols=['0','1']`,
`startstate=1`, `acceptstate=1`, `zeroIndexed=false` and the four expected
transition rows, and running that `FSMData` on `"0101"` visits states
`[1,1,1,1,1]`, accepts, and ends in state 1. -/
theorem claim_C3 :
    parse fixtureText = Except.ok fixtureFSM ∧
    runFSM fixtureFSM "0101" =
      ⟨true,
        [⟨1, none⟩, ⟨1, some "0"⟩, ⟨1, some "1"⟩, ⟨1, some "0"⟩, ⟨1, some "1"⟩],
        1, none⟩ := by
  exact ⟨by decide, by decide⟩

/-! ## C9: the indexing normalizer is idempotent -/

theorem contains_of_mem {l : List Int} {a : Int} (h : a ∈ l) : l.contains a = true := by
  simpa using h

theorem rowKeys_setZero (st : PData) (b : Bool) :
    rowKeys { st with zeroIndexed := b } = rowKeys st := rfl

theorem looksShifted_setZero (st : PData) (b : Bool) :
    looksShifted { st with zeroIndexed := b } = looksShifted st := rfl

/-- C9: the detect-and-normalize step is idempotent: a model it has already
produced is left untouched — a model it normalized to 0-based contains row
key 0 and is caught by the explicit-0-based case, and any other output falls
through to the branch it came from with no rewriting. -/
theorem claim_C9 (st : PData) :
    detectAndNormalize (detectAndNormalize st) = detectAndNormalize st := by
  by_cases h1 : (rowKeys st).isEmpty = true
  · have e1 : detectAndNormalize st = { st with zeroIndexed := false } := by
      unfold detectAndNormalize
      rw [if_pos h1]
    rw [e1]
    unfold detectAndNormalize
    rw [rowKeys_setZero, if_pos h1]
  · by_cases h2 : (rowKeys st).contains 0 = true
    · have e1 : detectAndNormalize st = { st with zeroIndexed := true } := by
        unfold detectAndNormalize
        rw [if_neg h1, if_pos h2]
      rw [e1]
      unfold detectAndNormalize
      rw [rowKeys_setZero, if_neg h1, if_pos h2]
    · by_cases h3 : looksShifted st = true
      · have e1 : detectAndNormalize st =
            { st with
              transitions :=
                st.transitions.foldl (fun acc e => recordInsert (e.1 - 1) e.2 acc) []
              startstate := st.startstate.map (· - 1)
              acceptstate := st.acceptstate.map (· - 1)
              zeroIndexed := true } := by
          unfold detectAndNormalize
          rw [if_neg h1, if_neg h2, if_pos h3]
        -- the new record contains row key 0 because some original key is 1
        have hne : rowKeys st ≠ [] := fun hc => h1 (List.isEmpty_iff.mpr hc)
        have hmin1 : jsMin (rowKeys st) = 1 := by
          simp only [looksShifted, Bool.and_eq_true, decide_eq_true_eq] at h3
          exact h3.1.1.1.1.2
        have hmem1 : (1 : Int) ∈ rowKeys st := hmin1 ▸ jsMin_mem hne
        obtain ⟨e, he, he1⟩ := List.mem_map.mp hmem1
        have hmem0 : (0 : Int) ∈
            (st.transitions.foldl (fun acc e => recordInsert (e.1 - 1) e.2 acc) []).map (·.1) := by
          have hfm := foldl_recordInsert_mem st.transitions e he []
          rwa [he1] at hfm
        rw [e1]
        unfold detectAndNormalize
        have hrk : rowKeys { st with
            transitions :=
              st.transitions.foldl (fun acc e => recordInsert (e.1 - 1) e.2 acc) []
            startstate := st.startstate.map (· - 1)
            acceptstate := st.acceptstate.map (· - 1)
            zeroIndexed := true } =
            (st.transitions.foldl (fun acc e => recordInsert (e.1 - 1) e.2 acc) []).map (·.1) :=
          rfl
        rw [hrk, if_neg ?hne2, if_pos (contains_of_mem hmem0)]
        case hne2 =>
          intro hc
          rw [List.isEmpty_iff] at hc
          rw [hc] at hmem0
          exact absurd hmem0 (List.not_mem_nil 0)
      · have e1 : detectAndNormalize st = { st with zeroIndexed := false } := by
          unfold detectAndNormalize
          rw [if_neg h1, if_neg h2, if_neg h3]
        rw [e1]
        unfold detectAndNormalize
        rw [rowKeys_setZero, if_neg h1, if_neg h2, looksShifted_setZero, if_neg h3]

/-! ## C1: the shifted-indexing normalization -/

/-- C1: for a parsed pre-normalization model (row keys strictly ascending,
as the parser's record keeps them) in which no row uses source key 0, the
row keys span exactly `1..states` and the observed targets span exactly
`0..states-1`, the normalization decrements every row key and both
`startstate` and `acceptstate` by one and records `zeroIndexed = true`. -/
theorem claim_C1 (st : PData)
    (hsorted : st.transitions.Pairwise (fun a b => a.1 < b.1))
    (h0 : (0 : Int) ∉ rowKeys st)
    (hne : st.transitions ≠ [])
    (hmin : jsMin (rowKeys st) = 1)
    (hmax : jsMax (rowKeys st) = st.states.getD 0)
    (htne : observedTargets st ≠ [])
    (htmin : jsMin (observedTargets st) = 0)
    (htmax : jsMax (observedTargets st) = st.states.getD 0 - 1) :
    detectAndNormalize st =
      { st with
        transitions := st.transitions.map (fun e => (e.1 - 1, e.2))
        startstate := st.startstate.map (· - 1)
        acceptstate := st.acceptstate.map (· - 1)
        zeroIndexed := true } := by
  have hrkne : rowKeys st ≠ [] := by
    intro hc
    exact hne (List.map_eq_nil_iff.mp hc)
  have hpos : (0 : Int) < st.states.getD 0 := by
    have hm := jsMin_le_jsMax hrkne
    rw [hmin, hmax] at hm
    omega
  have htne' : (!(observedTargets st).isEmpty) = true := by
    cases hoe : (observedTargets st).isEmpty
    · rfl
    · exact absurd (List.isEmpty_iff.mp hoe) htne
  have hcond : looksShifted st = true := by
    unfold looksShifted
    simp only [Bool.and_eq_true, decide_eq_true_eq]
    exact ⟨⟨⟨⟨⟨hpos, hmin⟩, hmax⟩, htne'⟩, htmin⟩, htmax⟩
  have hnotempty : ¬ (rowKeys st).isEmpty = true := by
    intro hc
    exact hrkne (List.isEmpty_iff.mp hc)
  have hnotzero : ¬ (rowKeys st).contains 0 = true := by
    intro hc
    exact h0 (by simpa using hc)
  unfold detectAndNormalize
  rw [if_neg hnotempty, if_neg hnotzero, if_pos hcond]
  have hmapfold : (st.transitions.map (fun e => (e.1 - 1, e.2))).foldl
      (fun acc e => recordInsert e.1 e.2 acc) [] =
      st.transitions.foldl (fun acc e => recordInsert (e.1 - 1) e.2 acc) [] :=
    List.foldl_map _ _ _ _
  have hfold : st.transitions.foldl (fun acc e => recordInsert (e.1 - 1) e.2 acc) [] =
      st.transitions.map (fun e => (e.1 - 1, e.2)) := by
    rw [← hmapfold]
    rw [foldl_recordInsert_sorted _ ?hp [] (fun a ha => absurd ha (List.not_mem_nil a))]
    · simp
    case hp =>
      refine List.Pairwise.map _ ?_ hsorted
      intro a b hab
      simpa using by omega
  rw [hfold]

/-- A concrete shifted model: two rows labelled 1,2 with targets 0,1. -/
def shiftedPData : PData :=
  { name := some "s", states := some 2, symbols := some ["0"],
    transitions := [(1, [("0", "1")]), (2, [("0", "0")])],
    startstate := some 1, acceptstate := some 2 }

theorem claim_C1_witness :
    detectAndNormalize shiftedPData =
      { shiftedPData with
        transitions := shiftedPData.transitions.map (fun e => (e.1 - 1, e.2))
        startstate := shiftedPData.startstate.map (· - 1)
        acceptstate := shiftedPData.acceptstate.map (· - 1)
        zeroIndexed := true } :=
  claim_C1 shiftedPData (by decide) (by decide) (by decide) (by decide) (by decide)
    (by decide) (by decide) (by decide)

/-! ## Enumerator lemmas (C5, C6) -/

theorem chunkSize_pos (fsm : FSMData) : 0 < chunkSize fsm := by
  unfold chunkSize
  match fsm.symbols with
  | [] => exact Nat.one_pos
  | s :: _ =>
    by_cases h : s.length = 0
    · simp [h]
    · simp [h]
      omega

theorem chunksGo_length (c : Nat) (hc : 0 < c) :
    ∀ (fuel : Nat) (cs : List Char), cs.length ≤ fuel →
      (chunksGo c fuel cs).length = (cs.length + c - 1) / c := by
  intro fuel
  induction fuel with
  | zero =>
    intro cs hcs
    have : cs = [] := List.eq_nil_of_length_eq_zero (by omega)
    subst this
    simp [chunksGo, Nat.div_eq_of_lt (by omega : c - 1 < c)]
  | succ fuel ih =>
    intro cs hcs
    match cs with
    | [] => simp [chunksGo, Nat.div_eq_of_lt (by omega : c - 1 < c)]
    | x :: rest =>
      have hmax : max c 1 = c := by omega
      have hstep : chunksGo c (fuel + 1) (x :: rest) =
          String.mk ((x :: rest).take c) :: chunksGo c fuel ((x :: rest).drop (max c 1)) := rfl
      rw [hstep, hmax]
      simp only [List.length_cons]
      have hcs' : rest.length + 1 ≤ fuel + 1 := by simpa using hcs
      have hdroplen : ((x :: rest).drop c).length ≤ fuel := by
        simp only [List.length_drop, List.length_cons]
        omega
      rw [ih _ hdroplen]
      have hdrop : ((x :: rest).drop c).length = rest.length + 1 - c := by
        simp
      rw [hdrop]
      set n := rest.length + 1 with hn
      have hn1 : 1 ≤ n := by omega
      rcases le_or_lt c n with h | h
      · have e1 : n - c + c - 1 = n - 1 := by omega
        have e2 : n + c - 1 = (n - 1) + c := by omega
        rw [e1, e2, Nat.add_div_right _ hc]
      · have e1 : n - c = 0 := by omega
        have e2 : (0 + c - 1) / c = 0 := Nat.div_eq_of_lt (by omega)
        rw [e1, e2]
        have e3 : (n + c - 1) / c = 1 := by
          apply Nat.div_eq_of_lt_le <;> omega
        rw [e3]

theorem chunksGo_getD (c : Nat) (hc : 0 < c) :
    ∀ (fuel : Nat) (cs : List Char) (i : Nat), cs.length ≤ fuel →
      (chunksGo c fuel cs).getD i "" = String.mk ((cs.drop (i * c)).take c) ∨
        (chunksGo c fuel cs).length ≤ i := by
  intro fuel
  induction fuel with
  | zero =>
    intro cs i hcs
    right
    simp [chunksGo]
  | succ fuel ih =>
    intro cs i hcs
    match cs with
    | [] => right; simp [chunksGo]
    | x :: rest =>
      have hmax : max c 1 = c := by omega
      have hstep : chunksGo c (fuel + 1) (x :: rest) =
          String.mk ((x :: rest).take c) :: chunksGo c fuel ((x :: rest).drop (max c 1)) := rfl
      rw [hstep, hmax]
      match i with
      | 0 => left; simp
      | i + 1 =>
        have hlen : ((x :: rest).drop c).length ≤ fuel := by
          simp only [List.length_drop, List.length_cons]
          simp only [List.length_cons] at hcs
          omega
        rcases ih ((x :: rest).drop c) i hlen with h | h
        · left
          rw [List.getD_cons_succ, h, List.drop_drop]
          have e : c + i * c = (i + 1) * c := by ring
          rw [e]
        · right
          simp only [List.length_cons]
          omega

theorem chunksOf_ne_nil {c : Nat} {cs : List Char} (h : cs ≠ []) :
    chunksOf c cs ≠ [] := by
  unfold chunksOf
  match cs, h with
  | x :: rest, _ =>
    simp [chunksGo]

theorem chunksOf_length (c : Nat) (hc : 0 < c) (cs : List Char) :
    (chunksOf c cs).length = (cs.length + c - 1) / c :=
  chunksGo_length c hc cs.length cs le_rfl

theorem chunksOf_getD (c : Nat) (hc : 0 < c) (cs : List Char) (i : Nat)
    (hi : i < (chunksOf c cs).length) :
    (chunksOf c cs).getD i "" = String.mk ((cs.drop (i * c)).take c) := by
  rcases chunksGo_getD c hc cs.length cs i le_rfl with h | h
  · exact h
  · exact absurd hi (by rw [chunksOf] at *; omega)

/-- The step list element at `p`, written out. -/
theorem generateFSMSteps_get (fsm : FSMData) (input : String) (p : Nat)
    (hp : p < (generateFSMSteps fsm input).length) :
    (generateFSMSteps fsm input).get ⟨p, hp⟩ =
      (if p = 0 then
        ⟨0, (chunksOf (chunkSize fsm) input.data).getD 0 "", true,
          [⟨fsm.startstate,
            getTransition fsm fsm.startstate ((chunksOf (chunkSize fsm) input.data).getD 0 ""),
            if 0 < (chunksOf (chunkSize fsm) input.data).length - 1 then
              some ((chunksOf (chunkSize fsm) input.data).getD 1 "")
            else none⟩]⟩
      else
        ⟨p, (chunksOf (chunkSize fsm) input.data).getD p "", false,
          (List.range fsm.states).map (fun (i : Nat) =>
            ⟨(i : Int) + 1,
              getTransition fsm ((i : Int) + 1)
                ((chunksOf (chunkSize fsm) input.data).getD p ""),
              if p < (chunksOf (chunkSize fsm) input.data).length - 1 then
                some ((chunksOf (chunkSize fsm) input.data).getD (p + 1) "")
              else none⟩)⟩ : StepResult) := by
  have hp' : p < (chunksOf (chunkSize fsm) input.data).length := by
    simpa [generateFSMSteps] using hp
  simp only [generateFSMSteps, List.get_eq_getElem, List.getElem_map, List.getElem_enum]
  by_cases h0 : p = 0
  · subst h0
    simp [List.getD_eq_getElem?_getD, List.getElem?_eq_getElem hp']
  · simp [h0, List.getD_eq_getElem?_getD, List.getElem?_eq_getElem hp']

theorem generateFSMSteps_length (fsm : FSMData) (input : String) :
    (generateFSMSteps fsm input).length = (chunksOf (chunkSize fsm) input.data).length := by
  simp [generateFSMSteps]

/-- The `upcomingInput` computed at position `p` is the next step's symbol
(or `none` at the final position). -/
theorem steps_upcoming (fsm : FSMData) (input : String) (p : Nat) :
    (if p < (chunksOf (chunkSize fsm) input.data).length - 1 then
        some ((chunksOf (chunkSize fsm) input.data).getD (p + 1) "")
      else none) =
      ((generateFSMSteps fsm input)[p + 1]?).map (·.symbol) := by
  have hlen := generateFSMSteps_length fsm input
  by_cases hc : p + 1 < (generateFSMSteps fsm input).length
  · rw [if_pos (by omega)]
    rw [List.getElem?_eq_getElem hc]
    have hg := generateFSMSteps_get fsm input (p + 1) hc
    rw [List.get_eq_getElem] at hg
    rw [hg]
    simp
  · rw [if_neg (by omega)]
    rw [List.getElem?_eq_none (by omega)]
    rfl

/-- C6 (amended): for a non-empty input the enumerator produces exactly
`⌈|input| / c⌉` steps, where `c` is the effective chunk size (the length of
`symbols[0]`, defaulting to 1 when symbols are empty **or the first symbol
is the empty string**); the step at position `p` carries the chunk
`input[p*c .. min((p+1)*c, |input|))`, and no error is raised when the
length is not a multiple of `c`. -/
theorem claim_C6 (fsm : FSMData) (input : String) (_h : input ≠ "") :
    (generateFSMSteps fsm input).length =
      (input.length + chunkSize fsm - 1) / chunkSize fsm ∧
    ∀ (p : Nat) (hp : p < (generateFSMSteps fsm input).length),
      ((generateFSMSteps fsm input).get ⟨p, hp⟩).symbol =
        String.mk ((input.data.drop (p * chunkSize fsm)).take (chunkSize fsm)) := by
  have hlen := generateFSMSteps_length fsm input
  constructor
  · rw [hlen, chunksOf_length _ (chunkSize_pos fsm)]
    rfl
  · intro p hp
    have hp' : p < (chunksOf (chunkSize fsm) input.data).length := by omega
    have hgd := chunksOf_getD (chunkSize fsm) (chunkSize_pos fsm) input.data p hp'
    rw [generateFSMSteps_get fsm input p hp]
    by_cases h0 : p = 0
    · subst h0
      simpa using hgd
    · simp only [h0, if_false]
      exact hgd

/-- A model whose symbols have length 2. -/
def chunkWitnessFSM : FSMData :=
  ⟨"w", 1, ["00"], [(1, [("00", "1")])], 1, 1, false⟩

theorem claim_C6_witness :
    ("01011" : String) ≠ "" ∧
    (generateFSMSteps chunkWitnessFSM "01011").length =
      ("01011".length + chunkSize chunkWitnessFSM - 1) / chunkSize chunkWitnessFSM :=
  ⟨by decide, (claim_C6 chunkWitnessFSM "01011" (by decide)).1⟩

/-- A model whose first symbol is the empty string. -/
def emptySymbolFSM : FSMData :=
  ⟨"e", 1, [""], [(1, [])], 1, 1, false⟩

/-- C6 counterexample: with `symbols = [""]` the claim's `c` is
`|symbols[0]| = 0`, so it predicts `⌈2/0⌉ = 0` steps on input `"ab"`,
but the code's `|| 1` default makes the chunk size 1 and yields 2 steps. -/
theorem claim_C6_counterexample :
    emptySymbolFSM.symbols = [""] ∧
    (generateFSMSteps emptySymbolFSM "ab").length = 2 ∧
    ("ab".length + "".length - 1) / "".length = 0 ∧ ¬ ((2 : Nat) = 0) := by
  exact ⟨rfl, by decide, by decide, by decide⟩

/-- C5: on any input with at least one chunk the step at position 0 is the
anchor and evaluates only the start state (its transition under the chunk
symbol, or `none` when absent), while every later step evaluates states
`1, 2, …, fsm.states` in ascending order — regardless of `zeroIndexed` —
recording each `nextState` (`none` when no transition exists for the pair)
and the next chunk's symbol (`none` at the final position). -/
theorem claim_C5 (fsm : FSMData) (input : String) (h : input ≠ "") :
    generateFSMSteps fsm input ≠ [] ∧
    (∀ (h0 : 0 < (generateFSMSteps fsm input).length),
      ((generateFSMSteps fsm input).get ⟨0, h0⟩).isAnchor = true ∧
      ((generateFSMSteps fsm input).get ⟨0, h0⟩).states =
        [⟨fsm.startstate,
          getTransition fsm fsm.startstate ((generateFSMSteps fsm input).get ⟨0, h0⟩).symbol,
          ((generateFSMSteps fsm input)[1]?).map (·.symbol)⟩]) ∧
    ∀ (p : Nat) (hp : p < (generateFSMSteps fsm input).length), 0 < p →
      ((generateFSMSteps fsm input).get ⟨p, hp⟩).isAnchor = false ∧
      ((generateFSMSteps fsm input).get ⟨p, hp⟩).states.length = fsm.states ∧
      ((generateFSMSteps fsm input).get ⟨p, hp⟩).states.map (·.currentState) =
        (List.range fsm.states).map (fun (i : Nat) => (i : Int) + 1) ∧
      ∀ e ∈ ((generateFSMSteps fsm input).get ⟨p, hp⟩).states,
        e.nextState = getTransition fsm e.currentState
          ((generateFSMSteps fsm input).get ⟨p, hp⟩).symbol ∧
        e.upcomingInput = ((generateFSMSteps fsm input)[p + 1]?).map (·.symbol) := by
  have hne : input.data ≠ [] := fun hc => h (by
    cases input
    simp only at hc
    rw [hc])
  have hlen := generateFSMSteps_length fsm input
  have hchne : chunksOf (chunkSize fsm) input.data ≠ [] := chunksOf_ne_nil hne
  refine ⟨?_, ?_, ?_⟩
  · intro hc
    exact hchne (by
      have hz : (generateFSMSteps fsm input).length = 0 := by rw [hc]; rfl
      rw [hlen] at hz
      exact List.eq_nil_of_length_eq_zero hz)
  · intro h0
    have hup := steps_upcoming fsm input 0
    simp only [Nat.zero_add] at hup
    rw [generateFSMSteps_get fsm input 0 h0, if_pos rfl]
    refine ⟨rfl, ?_⟩
    rw [hup]
  · intro p hp hppos
    have hp0 : ¬ p = 0 := by omega
    have hup := steps_upcoming fsm input p
    rw [generateFSMSteps_get fsm input p hp, if_neg hp0]
    refine ⟨rfl, by rw [List.length_map, List.length_range],
      by rw [List.map_map]; rfl, ?_⟩
    intro e he
    rw [List.mem_map] at he
    obtain ⟨i, _, hie⟩ := he
    subst hie
    exact ⟨rfl, by rw [← hup]⟩

theorem claim_C5_witness :
    ("01" : String) ≠ "" ∧
    generateFSMSteps fixtureFSM "01" ≠ [] ∧
    ((generateFSMSteps fixtureFSM "01").get ⟨0, by decide⟩).isAnchor = true :=
  ⟨by decide, (claim_C5 fixtureFSM "01" (by decide)).1,
    ((claim_C5 fixtureFSM "01" (by decide)).2.1 (by decide)).1⟩

/-! ## Decimal representation of states

The engines key their transition maps by strings built from
`toString state`.  To relate the string-keyed maps back to (state, symbol)
pairs we prove that the decimal representation is injective and never
contains a comma. -/

theorem toDigitsCore_append (fuel : Nat) :
    ∀ (n : Nat) (acc : List Char),
      Nat.toDigitsCore 10 fuel n acc = Nat.toDigitsCore 10 fuel n [] ++ acc := by
  induction fuel with
  | zero => intro n acc; simp [Nat.toDigitsCore]
  | succ fuel ih =>
    intro n acc
    simp only [Nat.toDigitsCore]
    by_cases h : n / 10 = 0
    · simp [h]
    · simp only [h, if_false]
      rw [ih (n / 10) [Nat.digitChar (n % 10)],
        ih (n / 10) (Nat.digitChar (n % 10) :: acc), List.append_assoc]
      rfl

theorem toDigitsCore_fuel (n : Nat) :
    ∀ f g, n < f → n < g →
      Nat.toDigitsCore 10 f n [] = Nat.toDigitsCore 10 g n [] := by
  induction n using Nat.strong_induction_on with
  | _ n ih =>
    intro f g hf hg
    match f, g, hf, hg with
    | f + 1, g + 1, _, _ =>
      simp only [Nat.toDigitsCore]
      by_cases h : n / 10 = 0
      · simp [h]
      · simp only [h, if_false]
        rw [toDigitsCore_append f, toDigitsCore_append g]
        have hlt : n / 10 < n := Nat.div_lt_self (by omega) (by omega)
        rw [ih (n / 10) hlt f g (by omega) (by omega)]

theorem toDigits_unfold (n : Nat) :
    Nat.toDigits 10 n =
      if n < 10 then [Nat.digitChar n]
      else Nat.toDigits 10 (n / 10) ++ [Nat.digitChar (n % 10)] := by
  by_cases h : n < 10
  · have h0 : n / 10 = 0 := Nat.div_eq_of_lt h
    have hm : n % 10 = n := Nat.mod_eq_of_lt h
    simp [Nat.toDigits, Nat.toDigitsCore, h0, h, hm]
  · have h0 : ¬ n / 10 = 0 := by
      intro hc
      have hdm := Nat.div_add_mod n 10
      have hm : n % 10 < 10 := Nat.mod_lt _ (by omega)
      omega
    have hstep : Nat.toDigits 10 n =
        Nat.toDigitsCore 10 n (n / 10) [Nat.digitChar (n % 10)] := by
      simp [Nat.toDigits, Nat.toDigitsCore, h0]
    have hlt : n / 10 < n := Nat.div_lt_self (by omega) (by omega)
    rw [if_neg h, hstep, toDigitsCore_append n (n / 10),
      toDigitsCore_fuel (n / 10) n (n / 10 + 1) hlt (by omega)]
    rfl

theorem digitChar_toNat {m : Nat} (h : m < 10) : (Nat.digitChar m).toNat = 48 + m := by
  interval_cases m <;> decide

theorem digitChar_isDigit {m : Nat} (h : m < 10) : (Nat.digitChar m).isDigit = true := by
  interval_cases m <;> decide

/-- Value of a digit string (base 10, ASCII). -/
def valD (l : List Char) : Nat :=
  l.foldl (fun a c => 10 * a + (c.toNat - 48)) 0

theorem foldl_valD (l : List Char) (c : Char) :
    ∀ a : Nat, (l ++ [c]).foldl (fun a c => 10 * a + (c.toNat - 48)) a =
      10 * (l.foldl (fun a c => 10 * a + (c.toNat - 48)) a) + (c.toNat - 48) := by
  induction l with
  | nil => intro a; rfl
  | cons x xs ih => intro a; exact ih _

theorem valD_toDigits (n : Nat) : valD (Nat.toDigits 10 n) = n := by
  induction n using Nat.strong_induction_on with
  | _ n ih =>
    rw [toDigits_unfold]
    by_cases h : n < 10
    · simp only [h, if_true]
      show 10 * 0 + ((Nat.digitChar n).toNat - 48) = n
      rw [digitChar_toNat h]
      omega
    · simp only [h, if_false]
      have hlt : n / 10 < n := Nat.div_lt_self (by omega) (by omega)
      have hv := ih (n / 10) hlt
      unfold valD at hv ⊢
      rw [foldl_valD, hv, digitChar_toNat (Nat.mod_lt _ (by omega))]
      omega

theorem repr_data (n : Nat) : (Nat.repr n).data = Nat.toDigits 10 n := rfl

theorem natRepr_inj {n m : Nat} (h : Nat.repr n = Nat.repr m) : n = m := by
  have hd : Nat.toDigits 10 n = Nat.toDigits 10 m := by
    rw [← repr_data, ← repr_data, h]
  have := valD_toDigits n
  rw [hd, valD_toDigits m] at this
  omega

theorem toDigits_all_digit (n : Nat) :
    ∀ c ∈ Nat.toDigits 10 n, c.isDigit = true := by
  induction n using Nat.strong_induction_on with
  | _ n ih =>
    intro c hc
    rw [toDigits_unfold] at hc
    by_cases h : n < 10
    · simp only [h, if_true] at hc
      rw [List.mem_singleton] at hc
      subst hc
      exact digitChar_isDigit h
    · simp only [h, if_false, List.mem_append] at hc
      rcases hc with hc | hc
      · exact ih (n / 10) (Nat.div_lt_self (by omega) (by omega)) c hc
      · rw [List.mem_singleton] at hc
        subst hc
        exact digitChar_isDigit (Nat.mod_lt _ (by omega))

theorem intStr_ofNat (m : Nat) : toString (Int.ofNat m) = Nat.repr m := rfl

theorem intStr_negSucc (m : Nat) :
    toString (Int.negSucc m) = "-" ++ Nat.repr (m + 1) := rfl

theorem not_comma_intStr (i : Int) : ',' ∉ (toString i).data := by
  intro h
  match i with
  | .ofNat m =>
    rw [intStr_ofNat, repr_data] at h
    have := toDigits_all_digit m ',' h
    exact absurd this (by decide)
  | .negSucc m =>
    rw [intStr_negSucc] at h
    rw [String.data_append] at h
    rcases List.mem_append.mp h with h | h
    · exact absurd h (by decide)
    · rw [repr_data] at h
      have := toDigits_all_digit (m + 1) ',' h
      exact absurd this (by decide)

theorem toDigits_ne_nil (n : Nat) : Nat.toDigits 10 n ≠ [] := by
  rw [toDigits_unfold]
  by_cases h : n < 10 <;> simp [h]

theorem str_data_inj {s t : String} (h : s.data = t.data) : s = t := by
  cases s
  cases t
  exact congrArg String.mk h

theorem intStr_inj {i j : Int} (h : toString i = toString j) : i = j := by
  match i, j with
  | .ofNat n, .ofNat m =>
    rw [intStr_ofNat, intStr_ofNat] at h
    rw [natRepr_inj h]
  | .negSucc n, .negSucc m =>
    rw [intStr_negSucc, intStr_negSucc] at h
    have hd := congrArg String.data h
    rw [String.data_append, String.data_append] at hd
    have hd2 : ('-' : Char) :: (Nat.repr (n + 1)).data =
        '-' :: (Nat.repr (m + 1)).data := by simpa using hd
    injection hd2 with _ hd3
    have heq := natRepr_inj (str_data_inj hd3)
    have heq2 : n = m := by omega
    rw [heq2]
  | .ofNat n, .negSucc m =>
    exfalso
    rw [intStr_ofNat, intStr_negSucc] at h
    have hd := congrArg String.data h
    rw [String.data_append, repr_data] at hd
    have hmem : '-' ∈ Nat.toDigits 10 n := by
      rw [hd]
      simp
    exact absurd (toDigits_all_digit n '-' hmem) (by decide)
  | .negSucc n, .ofNat m =>
    exfalso
    rw [intStr_ofNat, intStr_negSucc] at h
    have hd := congrArg String.data h.symm
    rw [String.data_append, repr_data] at hd
    have hmem : '-' ∈ Nat.toDigits 10 m := by
      rw [hd]
      simp
    exact absurd (toDigits_all_digit m '-' hmem) (by decide)

theorem append_comma_inj :
    ∀ (a b y z : List Char), ',' ∉ a → ',' ∉ b →
      a ++ ',' :: y = b ++ ',' :: z → a = b ∧ y = z := by
  intro a
  induction a with
  | nil =>
    intro b y z _ hb h
    match b with
    | [] => simpa using h
    | c :: b' =>
      exfalso
      simp only [List.nil_append, List.cons_append, List.cons.injEq] at h
      exact hb (h.1 ▸ List.mem_cons_self c b')
  | cons c a' ih =>
    intro b y z ha hb h
    match b with
    | [] =>
      exfalso
      simp only [List.cons_append, List.nil_append, List.cons.injEq] at h
      exact ha (h.1.symm ▸ List.mem_cons_self c a')
    | d :: b' =>
      simp only [List.cons_append, List.cons.injEq] at h
      have hrec := ih b' y z (fun hc => ha (List.mem_cons_of_mem c hc))
        (fun hc => hb (List.mem_cons_of_mem d hc)) h.2
      exact ⟨by rw [h.1, hrec.1], hrec.2⟩

theorem commaKey_inj {s t : Int} {y z : String} :
    commaKey s y = commaKey t z ↔ s = t ∧ y = z := by
  constructor
  · intro h
    have hd := congrArg String.data h
    simp only [commaKey, String.data_append] at hd
    have hd' : (toString s).data ++ ',' :: y.data = (toString t).data ++ ',' :: z.data := by
      simpa using hd
    have hsplit := append_comma_inj _ _ _ _ (not_comma_intStr s) (not_comma_intStr t) hd'
    exact ⟨intStr_inj (str_data_inj hsplit.1), str_data_inj hsplit.2⟩
  · rintro ⟨rfl, rfl⟩
    rfl

/-! ## The transition maps as association lists -/

theorem jsGet_jsSet (m : List (String × Int)) (k : String) (v : Int) (q : String) :
    jsGet (jsSet m k v) q = if q = k then some v else jsGet m q := by
  induction m with
  | nil =>
    by_cases h : q = k
    · simp [jsSet, jsGet, h]
    · simp [jsSet, jsGet, h, Ne.symm h]
  | cons e rest ih =>
    obtain ⟨k', v'⟩ := e
    by_cases h1 : k' = k
    · subst h1
      by_cases h : q = k'
      · subst h
        simp [jsSet, jsGet, List.find?]
      · simp [jsSet, jsGet, List.find?, h, Ne.symm h]
    · by_cases h : q = k'
      · subst h
        simp [jsSet, jsGet, List.find?, h1, fun hc => h1 (Eq.symm hc)]
      · have ih' := ih
        simp only [jsGet] at ih'
        simp [jsSet, jsGet, List.find?, h1, h, Ne.symm h, ih']

theorem jsGet_foldl_set (ws : List (String × Int)) :
    ∀ (m0 : List (String × Int)) (q : String),
      jsGet (ws.foldl (fun m e => jsSet m e.1 e.2) m0) q =
        ws.foldl (fun acc e => if e.1 = q then some e.2 else acc) (jsGet m0 q) := by
  induction ws with
  | nil => intro m0 q; rfl
  | cons e rest ih =>
    intro m0 q
    simp only [List.foldl_cons]
    rw [ih]
    congr 1
    rw [jsGet_jsSet]
    by_cases h : q = e.1
    · simp [h]
    · have h' : ¬ (e.1 = q) := fun hc => h hc.symm
      simp [h, h']

/-- The transitions flattened to (state, symbol, target) triples, in
enumeration order. -/
def flatTrans (fsm : FSMData) : List (Int × String × String) :=
  fsm.transitions.flatMap (fun e => e.2.map (fun p => (e.1, p.1, p.2)))

theorem buildMap_flat_gen (key : Int → String → String)
    (ts : List (Int × List (String × String))) :
    ∀ m0, ts.foldl (fun m e =>
        e.2.foldl (fun m p => jsSet m (key e.1 p.1) (parseIntTarget p.2)) m) m0 =
      (ts.flatMap (fun e => e.2.map (fun p => (e.1, p.1, p.2)))).foldl
        (fun m e => jsSet m (key e.1 e.2.1) (parseIntTarget e.2.2)) m0 := by
  induction ts with
  | nil => intro m0; rfl
  | cons e rest ih =>
    intro m0
    simp only [List.foldl_cons, List.flatMap_cons, List.foldl_append]
    rw [ih]
    congr 1
    exact (List.foldl_map (fun p => (e.1, p.1, p.2))
      (fun m e => jsSet m (key e.1 e.2.1) (parseIntTarget e.2.2)) e.2 m0).symm

theorem buildTransitionMap_flat (fsm : FSMData) :
    buildTransitionMap fsm =
      (flatTrans fsm).foldl
        (fun m e => jsSet m (commaKey e.1 e.2.1) (parseIntTarget e.2.2)) [] :=
  buildMap_flat_gen commaKey fsm.transitions []

theorem buildTransitionMapLegacy_flat (fsm : FSMData) :
    buildTransitionMapLegacy fsm =
      (flatTrans fsm).foldl
        (fun m e => jsSet m (bareKey e.1 e.2.1) (parseIntTarget e.2.2)) [] :=
  buildMap_flat_gen bareKey fsm.transitions []

theorem jsGet_buildMap_gen (key : Int → String → String) (fsm : FSMData) (q : String) :
    jsGet ((flatTrans fsm).foldl
        (fun m e => jsSet m (key e.1 e.2.1) (parseIntTarget e.2.2)) []) q =
      (flatTrans fsm).foldl
        (fun acc e => if key e.1 e.2.1 = q then some (parseIntTarget e.2.2) else acc)
        none := by
  have h1 : (flatTrans fsm).foldl
      (fun m e => jsSet m (key e.1 e.2.1) (parseIntTarget e.2.2)) [] =
      ((flatTrans fsm).map (fun e => (key e.1 e.2.1, parseIntTarget e.2.2))).foldl
        (fun m e => jsSet m e.1 e.2) [] :=
    (List.foldl_map (fun e => (key e.1 e.2.1, parseIntTarget e.2.2))
      (fun m e => jsSet m e.1 e.2) (flatTrans fsm) []).symm
  rw [h1, jsGet_foldl_set]
  rw [List.foldl_map]
  rfl

/-- The specification-level lookup: the **last** (state, symbol)-matching
entry of the flattened transition list (later writes overwrite earlier
ones in the engine's map). -/
def specLookup (fsm : FSMData) (s : Int) (sym : String) : Option Int :=
  (flatTrans fsm).foldl
    (fun acc e => if e.1 = s ∧ e.2.1 = sym then some (parseIntTarget e.2.2) else acc)
    none

/-- The engine's string-keyed lookup coincides with the pair-based
specification lookup (comma keys are injective). -/
theorem fsmLookup_eq (fsm : FSMData) (s : Int) (sym : String) :
    jsGet (buildTransitionMap fsm) (commaKey s sym) = specLookup fsm s sym := by
  rw [buildTransitionMap_flat, jsGet_buildMap_gen]
  unfold specLookup
  have hfun : (fun (acc : Option Int) (e : Int × String × String) =>
      if commaKey e.1 e.2.1 = commaKey s sym then some (parseIntTarget e.2.2) else acc) =
      (fun acc e => if e.1 = s ∧ e.2.1 = sym then some (parseIntTarget e.2.2) else acc) := by
    funext acc e
    exact if_congr commaKey_inj rfl rfl
  rw [hfun]

/-! ## C2: total-correctness characterization of `runFSM` -/

/-- The reference trace: consume characters one at a time from a state,
collecting the path entries; on a missing transition stop and report the
offending character. -/
def pathSpec (fsm : FSMData) : Int → List Char → List PathEntry × Int × Option Char
  | s, [] => ([], s, none)
  | s, c :: rest =>
    match specLookup fsm s (String.singleton c) with
    | none => ([], s, some c)
    | some t =>
      let r := pathSpec fsm t rest
      (⟨t, some (String.singleton c)⟩ :: r.1, r.2)

theorem runGo_pathSpec (fsm : FSMData) (a : Int) :
    ∀ (cs : List Char) (cur : Int) (acc : List PathEntry),
      runGo (buildTransitionMap fsm) a cur acc cs =
        ⟨(match (pathSpec fsm cur cs).2.2 with
          | none => decide ((pathSpec fsm cur cs).2.1 = a)
          | some _ => false),
          acc ++ (pathSpec fsm cur cs).1,
          (pathSpec fsm cur cs).2.1,
          ((pathSpec fsm cur cs).2.2).map (fun c =>
            "No transition for \x27" ++ String.singleton c ++ "\x27 from state " ++
              toString (pathSpec fsm cur cs).2.1)⟩ := by
  intro cs
  induction cs with
  | nil =>
    intro cur acc
    simp [runGo, pathSpec]
  | cons c rest ih =>
    intro cur acc
    rw [runGo, fsmLookup_eq]
    cases hnext : specLookup fsm cur (String.singleton c) with
    | none => simp [pathSpec, hnext]
    | some t =>
      simp only [pathSpec, hnext]
      rw [ih]
      simp

/-- C2: `runFSM` is a total function (no exception path exists), and its
result is fully characterized by the reference trace: when some character
has no transition from the current state, the run stops with
`accepted = false`, the path accumulated so far, `endState` the state
before the failed step and the error message naming the symbol and that
state; when the whole input is consumed, `accepted` holds exactly when the
final state is `acceptstate`, `endState` is the final state, and there is
no error. -/
theorem claim_C2 (fsm : FSMData) (input : String) :
    runFSM fsm input =
      ⟨(match (pathSpec fsm fsm.startstate input.data).2.2 with
        | none => decide ((pathSpec fsm fsm.startstate input.data).2.1 = fsm.acceptstate)
        | some _ => false),
        ⟨fsm.startstate, none⟩ :: (pathSpec fsm fsm.startstate input.data).1,
        (pathSpec fsm fsm.startstate input.data).2.1,
        ((pathSpec fsm fsm.startstate input.data).2.2).map (fun c =>
          "No transition for \x27" ++ String.singleton c ++ "\x27 from state " ++
            toString (pathSpec fsm fsm.startstate input.data).2.1)⟩ := by
  rw [runFSM, runGo_pathSpec]
  rfl

/-! ## C8: duplicate symbol entries resolve to the last match -/

theorem foldl_if_getLast? {α β : Type} (P : α → Prop) [DecidablePred P] (f : α → β) :
    ∀ (l : List α) (init : Option β),
      l.foldl (fun acc e => if P e then some (f e) else acc) init =
        (match (l.filter (fun e => decide (P e))).getLast? with
          | some e => some (f e)
          | none => init) := by
  intro l
  induction l using List.reverseRecOn with
  | nil => intro init; rfl
  | append_singleton l a ih =>
    intro init
    rw [List.foldl_append]
    by_cases h : P a
    · have hfil : List.filter (fun e => decide (P e)) (l ++ [a]) =
          List.filter (fun e => decide (P e)) l ++ [a] := by
        rw [List.filter_append]
        congr 1
        simp [h]
      rw [hfil, List.getLast?_concat]
      simp [h]
    · have hfil : List.filter (fun e => decide (P e)) (l ++ [a]) =
          List.filter (fun e => decide (P e)) l := by
        rw [List.filter_append]
        simp [h]
      rw [hfil]
      simp only [List.foldl_cons, List.foldl_nil, if_neg h]
      exact ih init

/-- A model with two entries for the same symbol in one state's list. -/
def dupFSM : FSMData :=
  ⟨"dup", 1, ["0"], [(1, [("0", "2"), ("0", "3")])], 1, 2, false⟩

/-- C8 counterexample: state 1 lists `('0','2')` before `('0','3')`; the
first matching entry is target 2 (as `getTransition`, the enumerator's
first-match lookup, confirms), but `runFSM` moves to 3 — the map build
overwrites, so the **last** entry wins, not the first. -/
theorem claim_C8_counterexample :
    getTransition dupFSM 1 "0" = some 2 ∧
    (runFSM dupFSM "0").path = [⟨1, none⟩, ⟨3, some "0"⟩] ∧
    (runFSM dupFSM "0").endState = 3 ∧ ¬ ((3 : Int) = 2) := by
  exact ⟨by decide, by decide, by decide, by decide⟩

/-- C8 (amended): when a state's transitions contain two entries for the
same symbol, every lookup the engine performs for that (state, symbol) pair
resolves to the **last** matching entry in list order. -/
theorem claim_C8 (fsm : FSMData) (s : Int) (c : Char)
    (_hdup : 2 ≤ ((flatTrans fsm).filter
      (fun e => decide (e.1 = s ∧ e.2.1 = String.singleton c))).length) :
    jsGet (buildTransitionMap fsm) (commaKey s (String.singleton c)) =
      (((flatTrans fsm).filter
          (fun e => decide (e.1 = s ∧ e.2.1 = String.singleton c))).getLast?).map
        (fun e => parseIntTarget e.2.2) := by
  rw [fsmLookup_eq]
  unfold specLookup
  rw [foldl_if_getLast? (fun e => e.1 = s ∧ e.2.1 = String.singleton c)
    (fun e => parseIntTarget e.2.2) (flatTrans fsm) none]
  cases ((flatTrans fsm).filter
      (fun e => decide (e.1 = s ∧ e.2.1 = String.singleton c))).getLast? <;> rfl

theorem claim_C8_witness :
    2 ≤ ((flatTrans dupFSM).filter
      (fun e => decide (e.1 = 1 ∧ e.2.1 = String.singleton '0'))).length ∧
    jsGet (buildTransitionMap dupFSM) (commaKey 1 (String.singleton '0')) =
      (((flatTrans dupFSM).filter
          (fun e => decide (e.1 = 1 ∧ e.2.1 = String.singleton '0'))).getLast?).map
        (fun e => parseIntTarget e.2.2) :=
  ⟨by decide, claim_C8 dupFSM 1 '0' (by decide)⟩

/-! ## C10: legacy engine vs current engine -/

/-- A model with a multi-character symbol that makes the legacy bare keys
collide: state 1 on symbol `"23"` produces key `"123"`, which is also the
bare key of state 12 on symbol `"3"`. -/
def collideFSM : FSMData :=
  ⟨"col", 13, ["0"], [(1, [("23", "5")]), (12, [])], 12, 5, false⟩

/-- C10 counterexample: from state 12 on character `'3'` the current
engine finds no transition (key `"12,3"` is absent) and rejects, while the
legacy engine finds key `"123"` — written by state 1's `("23","5")` entry —
and accepts in state 5; the two engines disagree on every field. -/
theorem claim_C10_counterexample :
    (runFSM collideFSM "3").accepted = false ∧
    (runFSMLegacy collideFSM "3").accepted = true ∧
    (runFSM collideFSM "3").endState = 12 ∧
    (runFSMLegacy collideFSM "3").endState = 5 ∧
    ¬ (runFSM collideFSM "3" = runFSMLegacy collideFSM "3") := by
  exact ⟨by decide, by decide, by decide, by decide, by decide⟩

theorem bareKey_eq_iff {i j : Int} {y z : String} (hy : y.length = 1)
    (hz : z.length = 1) : bareKey i y = bareKey j z ↔ i = j ∧ y = z := by
  constructor
  · intro h
    have hd := congrArg String.data h
    simp only [bareKey, String.data_append] at hd
    have hlen : y.data.length = z.data.length := by
      have hy' : y.data.length = 1 := hy
      have hz' : z.data.length = 1 := hz
      omega
    have hsplit := List.append_inj' hd hlen
    exact ⟨intStr_inj (str_data_inj hsplit.1), str_data_inj hsplit.2⟩
  · rintro ⟨rfl, rfl⟩
    rfl

theorem foldl_lookup_congr (l : List (Int × String × String))
    (p q : Int × String × String → Prop) [DecidablePred p] [DecidablePred q]
    (h : ∀ e ∈ l, p e ↔ q e) :
    ∀ init : Option Int,
      l.foldl (fun acc e => if p e then some (parseIntTarget e.2.2) else acc) init =
        l.foldl (fun acc e => if q e then some (parseIntTarget e.2.2) else acc) init := by
  induction l with
  | nil => intro init; rfl
  | cons e rest ih =>
    intro init
    simp only [List.foldl_cons]
    rw [if_congr (h e (by simp)) rfl rfl]
    exact ih (fun x hx => h x (by simp [hx])) _

/-- With single-character symbols the two engines' lookups agree. -/
theorem lookup_agree (fsm : FSMData)
    (h1 : ∀ e ∈ flatTrans fsm, e.2.1.length = 1) (s : Int) (c : Char) :
    jsGet (buildTransitionMapLegacy fsm) (bareKey s (String.singleton c)) =
      jsGet (buildTransitionMap fsm) (commaKey s (String.singleton c)) := by
  rw [buildTransitionMap_flat, buildTransitionMapLegacy_flat,
    jsGet_buildMap_gen, jsGet_buildMap_gen]
  refine foldl_lookup_congr (flatTrans fsm) _ _ ?_ none
  intro e he
  rw [bareKey_eq_iff (h1 e he) (show (String.singleton c).length = 1 from rfl), commaKey_inj]

theorem runGoLegacy_eq (fsm : FSMData)
    (h1 : ∀ e ∈ flatTrans fsm, e.2.1.length = 1) (a : Int) :
    ∀ (cs : List Char) (cur : Int) (acc : List PathEntry),
      runGoLegacy (buildTransitionMapLegacy fsm) a cur acc cs =
        runGo (buildTransitionMap fsm) a cur acc cs := by
  intro cs
  induction cs with
  | nil => intro cur acc; rfl
  | cons c rest ih =>
    intro cur acc
    rw [runGoLegacy, runGo, lookup_agree fsm h1 cur c]
    cases jsGet (buildTransitionMap fsm) (commaKey cur (String.singleton c)) with
    | none => rfl
    | some t => exact ih t _

/-- C10 (amended): the legacy engine (bare-concatenation keys) and the
current engine (comma-joined keys) return identical results on every
`FSMData` **whose transition symbols all have length 1** — the bare keys
are ambiguous for longer symbols, as the counterexample shows. -/
theorem claim_C10 (fsm : FSMData) (input : String)
    (h1 : ∀ e ∈ flatTrans fsm, e.2.1.length = 1) :
    runFSMLegacy fsm input = runFSM fsm input := by
  rw [runFSMLegacy, runFSM, runGoLegacy_eq fsm h1]

/-- A single-character-symbol model on which both engines agree. -/
def agreeFSM : FSMData :=
  ⟨"ok", 2, ["0", "1"], [(1, [("0", "2"), ("1", "1")]), (2, [("0", "1"), ("1", "2")])],
    1, 2, false⟩

theorem claim_C10_witness :
    (∀ e ∈ flatTrans agreeFSM, e.2.1.length = 1) ∧
    runFSMLegacy agreeFSM "0101" = runFSM agreeFSM "0101" :=
  ⟨by decide, claim_C10 agreeFSM "0101" (by decide)⟩

/-! ## C7: transition-row dialect order and error behaviour -/

theorem isEmpty_false_of_ne {α : Type} {l : List α} (h : ¬ l = []) :
    l.isEmpty = false := by
  cases l with
  | nil => exact absurd rfl h
  | cons x xs => rfl

theorem mtch_reRow_eq_nil (cs : List Char) (h : ∀ c ∈ cs, ¬ c.isDigit = true) :
    mtch reRow cs = [] := by
  have hk : runLen Char.isDigit cs = 0 := by
    cases cs with
    | nil => rfl
    | cons c rest => simp [runLen, h c (by simp)]
  simp [reRow, mtch, hk]

theorem scanMatch_reRow_none (cs : List Char) (h : ∀ c ∈ cs, ¬ c.isDigit = true) :
    scanMatch reRow cs = none := by
  induction cs with
  | nil =>
    rw [scanMatch, mtch_reRow_eq_nil [] (by simp)]
    rfl
  | cons c rest ih =>
    rw [scanMatch, mtch_reRow_eq_nil _ h]
    exact ih (fun x hx => h x (by simp [hx]))

/-- C7 (amended): the natural-language dialect is tried first and used
whenever it yields at least one match; the legacy dotted dialect is
consulted only when the natural-language form yields zero matches; a row
with **no digit anywhere** (the unanchored state-number regex then cannot
match) or that yields zero transitions under both dialects raises an
`FSMValidationError` carrying the row's 1-based line number.  (The original
claim's "leading token is not a number" is too strong: the regex is
unanchored, so a row like `x1: 0.1` parses via its embedded digit.) -/
theorem claim_C7 (ln : Nat) (line : List Char) :
    ((∀ c ∈ line, ¬ c.isDigit = true) →
      parseTransitionLine ln line =
        .error ⟨ln, "Invalid transition format: \x27" ++ String.mk line ++ "\x27"⟩) ∧
    (∀ caps rest, scanMatch reRow line = some (caps, rest) →
      (¬ newFormatMatches (getCap caps 2) = [] →
        parseTransitionLine ln line =
          .ok (digitsToInt (getCap caps 1), newFormatMatches (getCap caps 2))) ∧
      (newFormatMatches (getCap caps 2) = [] →
        (¬ oldFormatMatches (getCap caps 2) = [] →
          parseTransitionLine ln line =
            .ok (digitsToInt (getCap caps 1), oldFormatMatches (getCap caps 2))) ∧
        (oldFormatMatches (getCap caps 2) = [] →
          parseTransitionLine ln line =
            .error ⟨ln, "No valid transitions found in: \x27" ++ String.mk line ++ "\x27"⟩))) := by
  constructor
  · intro h
    unfold parseTransitionLine
    rw [scanMatch_reRow_none line h]
  · intro caps rest hscan
    unfold parseTransitionLine
    rw [hscan]
    refine ⟨?_, ?_⟩
    · intro hnf
      simp only [isEmpty_false_of_ne hnf, Bool.false_eq_true, if_false,
        isEmpty_false_of_ne hnf]
    · intro hnf
      have hnf' : (newFormatMatches (getCap caps 2)).isEmpty = true := by
        rw [hnf]
        rfl
      refine ⟨?_, ?_⟩
      · intro hof
        simp only [hnf', if_true, isEmpty_false_of_ne hof, Bool.false_eq_true, if_false]
      · intro hof
        have hof' : (oldFormatMatches (getCap caps 2)).isEmpty = true := by
          rw [hof]
          rfl
        simp only [hnf', if_true, hof']

/-- C7 counterexample: the row `"x1: 0.1, 1.0"` has the non-numeric leading
token `"x1"`, yet no error is raised: the unanchored regex matches the
embedded digit, and the row parses as state 1 with legacy-dialect
transitions. -/
theorem claim_C7_counterexample :
    jsParseInt "x1" = none ∧
    parseTransitionLine 5 "x1: 0.1, 1.0".data =
      .ok (1, [("0", "1"), ("1", "0")]) := by
  exact ⟨by decide, by decide⟩

theorem claim_C7_witness :
    parseTransitionLine 9 "zz".data =
      .error ⟨9, "Invalid transition format: \x27" ++ String.mk "zz".data ++ "\x27"⟩ :=
  (claim_C7 9 "zz".data).1 (by decide)

/-! ## C4: invariants of every successfully parsed model -/

theorem validateRules_ok {st : PData} {f : Found} (h : validateRules st f = .ok ()) :
    (st.transitions.map (·.1)).length =
      (expectedStates st.zeroIndexed (st.states.getD 0)).length ∧
    (∀ s ∈ expectedStates st.zeroIndexed (st.states.getD 0),
      s ∈ st.transitions.map (·.1)) ∧
    (stateMinOf st ≤ st.startstate.getD 0 ∧ st.startstate.getD 0 ≤ stateMaxOf st) ∧
    (stateMinOf st ≤ st.acceptstate.getD 0 ∧ st.acceptstate.getD 0 ≤ stateMaxOf st) ∧
    (∀ e ∈ st.transitions, e.2.length = (st.symbols.getD []).length) ∧
    (∀ e ∈ st.transitions, ∀ p ∈ e.2, ∀ v, jsParseInt p.2 = some v →
      stateMinOf st ≤ v ∧ v ≤ stateMaxOf st) := by
  unfold validateRules at h
  by_cases h1 : (!(missingFields f).isEmpty) = true
  · rw [if_pos h1] at h
    exact absurd h (by simp)
  · rw [if_neg h1] at h
    by_cases h2 : (st.transitions.map (·.1)).length ≠
        (expectedStates st.zeroIndexed (st.states.getD 0)).length
    · rw [if_pos h2] at h
      exact absurd h (by simp)
    · rw [if_neg h2] at h
      by_cases h3 : (!((expectedStates st.zeroIndexed (st.states.getD 0)).all
          (fun s => (st.transitions.map (·.1)).contains s))) = true
      · rw [if_pos h3] at h
        exact absurd h (by simp)
      · rw [if_neg h3] at h
        by_cases h4 : (st.startstate.getD 0 < stateMinOf st ||
            stateMaxOf st < st.startstate.getD 0) = true
        · rw [if_pos h4] at h
          exact absurd h (by simp)
        · rw [if_neg h4] at h
          by_cases h5 : (st.acceptstate.getD 0 < stateMinOf st ||
              stateMaxOf st < st.acceptstate.getD 0) = true
          · rw [if_pos h5] at h
            exact absurd h (by simp)
          · rw [if_neg h5] at h
            by_cases h6 : (!(st.transitions.all
                (fun e => e.2.length = (st.symbols.getD []).length))) = true
            · rw [if_pos h6] at h
              exact absurd h (by simp)
            · rw [if_neg h6] at h
              by_cases h7 : (!(st.transitions.all (fun e => e.2.all (fun p =>
                  match jsParseInt p.2 with
                  | none => true
                  | some v => stateMinOf st ≤ v && v ≤ stateMaxOf st)))) = true
              · rw [if_pos h7] at h
                exact absurd h (by simp)
              · refine ⟨by omega, ?_, ?_, ?_, ?_, ?_⟩
                · intro s hs
                  have h3' : (expectedStates st.zeroIndexed (st.states.getD 0)).all
                      (fun s => (st.transitions.map (·.1)).contains s) = true := by
                    simpa using h3
                  rw [List.all_eq_true] at h3'
                  simpa using h3' s hs
                · simp only [Bool.or_eq_true, decide_eq_true_eq, not_or] at h4
                  omega
                · simp only [Bool.or_eq_true, decide_eq_true_eq, not_or] at h5
                  omega
                · intro e he
                  have h6' : st.transitions.all
                      (fun e => e.2.length = (st.symbols.getD []).length) = true := by
                    simpa using h6
                  rw [List.all_eq_true] at h6'
                  simpa using h6' e he
                · intro e he p hp v hv
                  have h7' : st.transitions.all (fun e => e.2.all (fun p =>
                      match jsParseInt p.2 with
                      | none => true
                      | some v => stateMinOf st ≤ v && v ≤ stateMaxOf st)) = true := by
                    simpa using h7
                  rw [List.all_eq_true] at h7'
                  have hall := h7' e he
                  rw [List.all_eq_true] at hall
                  have h2' := hall p hp
                  rw [hv] at h2'
                  simp only [Bool.and_eq_true, decide_eq_true_eq] at h2'
                  exact h2'

/-- C4: whenever `parse` returns an `FSMData`, every canonical state
identifier in the expected range occurs as a transition source; the number
of distinct transition sources equals `states`; each source's transition
list has exactly `symbols.length` entries; `startstate` and `acceptstate`
lie in the canonical range; and every (numeric) transition target lies in
the canonical range. -/
theorem claim_C4 (text : String) (fsm : FSMData) (h : parse text = .ok fsm) :
    (∀ s ∈ expectedStates fsm.zeroIndexed (fsm.states : Int),
      s ∈ fsm.transitions.map (·.1)) ∧
    (fsm.transitions.map (·.1)).dedup.length = fsm.states ∧
    (∀ e ∈ fsm.transitions, e.2.length = fsm.symbols.length) ∧
    ((if fsm.zeroIndexed then (0 : Int) else 1) ≤ fsm.startstate ∧
      fsm.startstate ≤
        (if fsm.zeroIndexed then (fsm.states : Int) - 1 else (fsm.states : Int))) ∧
    ((if fsm.zeroIndexed then (0 : Int) else 1) ≤ fsm.acceptstate ∧
      fsm.acceptstate ≤
        (if fsm.zeroIndexed then (fsm.states : Int) - 1 else (fsm.states : Int))) ∧
    (∀ e ∈ fsm.transitions, ∀ p ∈ e.2, ∀ v, jsParseInt p.2 = some v →
      (if fsm.zeroIndexed then (0 : Int) else 1) ≤ v ∧
      v ≤ (if fsm.zeroIndexed then (fsm.states : Int) - 1 else (fsm.states : Int))) := by
  simp only [parse] at h
  split at h
  · exact absurd h (by simp)
  · split at h
    · exact absurd h (by simp)
    · split at h
      · exact absurd h (by simp)
      · rename_i st0 f0 hpf xv u hval
        rw [Except.ok.injEq] at h
        subst h
        set st := detectAndNormalize st0 with hst
        obtain ⟨hlen, hmem, hstart, haccept, hsym, htgt⟩ :=
          @validateRules_ok st f0 (by
            cases hu : validateRules st f0 with
            | error e => rw [hu] at hval; cases hval
            | ok u2 => cases u2; rfl)
        have hpos : 0 ≤ st.states.getD 0 := by
          by_cases hz : st.zeroIndexed <;>
            simp only [stateMinOf, stateMaxOf, hz, if_true, if_false] at hstart <;>
            omega
        have hstates : ((toFSMData st).states : Int) = st.states.getD 0 :=
          Int.toNat_of_nonneg hpos
        have hzero : (toFSMData st).zeroIndexed = st.zeroIndexed := rfl
        have htrans : (toFSMData st).transitions = st.transitions := rfl
        have hss : (toFSMData st).startstate = st.startstate.getD 0 := rfl
        have has : (toFSMData st).acceptstate = st.acceptstate.getD 0 := rfl
        have hsy : (toFSMData st).symbols = st.symbols.getD [] := rfl
        rw [hzero, htrans, hss, has, hsy, hstates]
        refine ⟨hmem, ?_, hsym, hstart, haccept, htgt⟩
        have hnodup : (expectedStates st.zeroIndexed (st.states.getD 0)).Nodup := by
          unfold expectedStates
          refine List.Nodup.map ?_ (List.nodup_range _)
          intro a b hab
          by_cases hz : st.zeroIndexed <;> simp [hz] at hab <;> omega
        have hsub : expectedStates st.zeroIndexed (st.states.getD 0) ⊆
            (st.transitions.map (·.1)).dedup := by
          intro s hs
          exact List.mem_dedup.mpr (hmem s hs)
        have hle1 : (expectedStates st.zeroIndexed (st.states.getD 0)).length ≤
            (st.transitions.map (·.1)).dedup.length :=
          (hnodup.subperm hsub).length_le
        have hle2 : (st.transitions.map (·.1)).dedup.length ≤
            (st.transitions.map (·.1)).length :=
          (List.dedup_sublist _).length_le
        have hexplen : (expectedStates st.zeroIndexed (st.states.getD 0)).length =
            (st.states.getD 0).toNat := by
          unfold expectedStates
          rw [List.length_map, List.length_range]
        have hfin : (toFSMData st).states = (st.states.getD 0).toNat := rfl
        rw [hfin]
        omega

/-- A minimal well-formed source text for the witness. -/
def tinyText : String :=
  "name = \x27a\x27\nstates = 1\nsymbols = \x7b0\x7d\ntransitions =\n1: 0.1\nstartstate = 1\nacceptstate = 1"

def tinyFSM : FSMData :=
  ⟨"a", 1, ["0"], [(1, [("0", "1")])], 1, 1, false⟩

theorem claim_C4_witness :
    parse tinyText = .ok tinyFSM ∧
    (∀ s ∈ expectedStates tinyFSM.zeroIndexed (tinyFSM.states : Int),
      s ∈ tinyFSM.transitions.map (·.1)) ∧
    (tinyFSM.transitions.map (·.1)).dedup.length = tinyFSM.states :=
  ⟨by decide, (claim_C4 tinyText tinyFSM (by decide)).1,
    (claim_C4 tinyText tinyFSM (by decide)).2.1⟩

end FSM
